import Mathlib

/-!
# Verification of the book-splitter chapter extraction and export planning

This file gives a shallow embedding, in Lean, of the core algorithms of the
book-splitter application, and proves (or refutes) the specified properties
about them.

The embedding covers:

* the PDF chapter data model and the page-range resolver
  (`calculateEndPages` and its helpers) from `pdfProcessor.ts`;
* the outline parser skeleton (`parseOutlineItem`, `extractPdfChapters`)
  from `pdfProcessor.ts`, with the asynchronous PDF.js document handle
  abstracted to a pure outline tree in which every outline destination is
  either a resolved 0-based page index or unresolvable;
* the EPUB navigation-target splitting (`parseNavPoint` / `parseNavList`),
  the navigation-source selection of `extractEpubChapters`, and the batched,
  cached content-loading loop of `extractEpubChapters` from
  `epubProcessor.ts`, with the zip archive abstracted to a partial map from
  paths to file text and the DOM-based `extractContentByAnchor` abstracted
  to an opaque function parameter;
* the export-task planner of `handleExport` from `App.tsx` (the part that
  turns tree + selection + merge flags + merge mode into an ordered task
  list), together with `buildHierarchicalFilename` / `sanitizeFilename`
  from `filenameUtils.ts`.

Modelling conventions:

* JavaScript numbers holding page counts are embedded as `Int` (all the
  arithmetic involved is exact integer arithmetic).
* Optional fields (`startPage?: number`) are embedded as `Option`.
* JavaScript truthiness is embedded explicitly: `undefined`, `0` and `""`
  are falsy.
* `Array.prototype.sort` with the comparators used by the source
  (`(a, b) => a.startPage - b.startPage`) is a stable sort by `startPage`;
  a stable sort's output is uniquely determined by the comparator, so it is
  embedded with `List.insertionSort` (which is stable) on position-tagged
  elements; the position tag models object identity of the mutated
  chapter records.
* The `Math.min(...)` of an empty list of values (JS `Infinity`) is
  represented by `none`.
-/

/-! ## PDF chapter data model (`pdfProcessor.ts`)

`PdfChapter` mirrors the exported interface of `pdfProcessor.ts`: `id`,
`title`, 1-based inclusive `startPage`/`endPage`, `level`, `children`
(`children? : PdfChapter[]`, with an absent or empty array meaning a leaf;
the parser always materialises the array, so we embed it as a plain list).
-/

structure PdfChapter where
  id : String
  title : String
  startPage : Int
  endPage : Int
  level : Nat
  children : List PdfChapter
deriving Repr

mutual

def pdfChapterDecEq : (a b : PdfChapter) → Decidable (a = b)
  | ⟨i,t,s,e,l,c⟩, ⟨i',t',s',e',l',c'⟩ =>
    have : Decidable (c = c') := pdfChapterListDecEq c c'
    decidable_of_iff (i = i' ∧ t = t' ∧ s = s' ∧ e = e' ∧ l = l' ∧ c = c')
      (by rw [PdfChapter.mk.injEq])

def pdfChapterListDecEq : (a b : List PdfChapter) → Decidable (a = b)
  | [], [] => isTrue rfl
  | [], _ :: _ => isFalse (by simp)
  | _ :: _, [] => isFalse (by simp)
  | x :: xs, y :: ys =>
    have : Decidable (x = y) := pdfChapterDecEq x y
    have : Decidable (xs = ys) := pdfChapterListDecEq xs ys
    decidable_of_iff (x = y ∧ xs = ys) (by rw [List.cons.injEq])

end

instance : DecidableEq PdfChapter := pdfChapterDecEq

/-! ## Range resolver (`calculateEndPages`, `pdfProcessor.ts` lines 81-134) -/

/- The leaf collection of `calculateEndPages`: depth-first, a node without
children is pushed, a node with children is recursed into. -/
mutual

def collectLeaves : PdfChapter → List PdfChapter
  | .mk i t s e l children =>
    if children.isEmpty then [.mk i t s e l children] else collectLeavesList children

def collectLeavesList : List PdfChapter → List PdfChapter
  | [] => []
  | c :: cs => collectLeaves c ++ collectLeavesList cs

end

/- `getLastDescendantEndPage` of `calculateEndPages`: a leaf returns its own
`endPage`, a node with children recurses into its last child.
`getLastDescendantEndPageList` returns the value for the last element of a
non-empty list (the `[]` case is unreachable and returns `0`). -/
mutual

def getLastDescendantEndPage : PdfChapter → Int
  | .mk _ _ _ e _ [] => e
  | .mk _ _ _ _ _ (c :: cs) => getLastDescendantEndPageList (c :: cs)

def getLastDescendantEndPageList : List PdfChapter → Int
  | [] => 0
  | [c] => getLastDescendantEndPage c
  | _ :: d :: ds => getLastDescendantEndPageList (d :: ds)

end

/- `setParentEndPages` of `calculateEndPages`: processes children first, then
sets a parent's `endPage` to the `endPage` of its last descendant leaf.
Leaves are left unchanged. -/
mutual

def setParentEndPages : PdfChapter → PdfChapter
  | .mk i t s e l [] => .mk i t s e l []
  | .mk i t s _e l (c :: cs) =>
    let cs' := setParentEndPagesList (c :: cs)
    .mk i t s (getLastDescendantEndPageList cs') l cs'

def setParentEndPagesList : List PdfChapter → List PdfChapter
  | [] => []
  | c :: cs => setParentEndPages c :: setParentEndPagesList cs

end

/- The comparator `(a, b) => a.startPage - b.startPage` used to sort the
collected leaves, lifted to position-tagged leaves (the `Nat` tag is the
depth-first position of the leaf and models the object identity of the
mutated record; the comparator itself ignores it, so sorting tagged leaves
with a stable sort computes exactly what the stable JS sort computes). -/
def leStart (a b : Nat × PdfChapter) : Prop := a.2.startPage ≤ b.2.startPage

instance : DecidableRel leStart := fun a b =>
  inferInstanceAs (Decidable (a.2.startPage ≤ b.2.startPage))

instance : IsTotal (Nat × PdfChapter) leStart := ⟨fun a b => le_total a.2.startPage b.2.startPage⟩

instance : IsTrans (Nat × PdfChapter) leStart := ⟨fun _ _ _ h h' => le_trans h h'⟩

/-- The end-page assignment loop of `calculateEndPages`: in the sorted leaf
list, each leaf's `endPage` becomes the next leaf's `startPage - 1`, and the
last leaf's `endPage` becomes `totalPages`. The result is an association
list from depth-first leaf position to new `endPage`. -/
def computeLeafEndPages : List (Nat × PdfChapter) → Int → List (Nat × Int)
  | [], _ => []
  | [(j, _)], totalPages => [(j, totalPages)]
  | (j, _) :: (k, d) :: rest, totalPages =>
    (j, d.startPage - 1) :: computeLeafEndPages ((k, d) :: rest) totalPages

/- Write the new leaf `endPage`s back into the tree: the source mutates the
shared leaf records in place, which we model by walking the tree in the same
depth-first order, counting leaves, and replacing each leaf's `endPage` by
its assigned value (a leaf without an assigned value keeps its `endPage`;
this never happens for the association list built by `calculateEndPages`). -/
mutual

def assignLeafEndPages (m : List (Nat × Int)) : PdfChapter → Nat → PdfChapter × Nat
  | .mk i t s e l [], n => (.mk i t s ((List.lookup n m).getD e) l [], n + 1)
  | .mk i t s e l (c :: cs), n =>
    let r := assignLeafEndPagesList m (c :: cs) n
    (.mk i t s e l r.1, r.2)

def assignLeafEndPagesList (m : List (Nat × Int)) : List PdfChapter → Nat → List PdfChapter × Nat
  | [], n => ([], n)
  | c :: cs, n =>
    let r := assignLeafEndPages m c n
    let r' := assignLeafEndPagesList m cs r.2
    (r.1 :: r'.1, r'.2)

end

/- `calculateEndPages` (`pdfProcessor.ts` lines 81-134): collect the leaves
depth-first, stably sort them by `startPage`, give each leaf the next sorted
leaf's `startPage - 1` (the last leaf gets `totalPages`), then recompute
every parent's `endPage` as its last descendant leaf's `endPage`. -/
def calculateEndPages (chapters : List PdfChapter) (totalPages : Int) : List PdfChapter :=
  let leafChapters := collectLeavesList chapters
  let sorted := List.insertionSort leStart leafChapters.enum
  let newEnds := computeLeafEndPages sorted totalPages
  setParentEndPagesList (assignLeafEndPagesList newEnds chapters 0).1

/-! ## Outline parser (`parseOutlineItem` / `extractPdfChapters`)

The PDF.js outline is abstracted to a tree of titled items whose
destination either resolves to a 0-based page index or does not resolve
(`none`); `parseOutlineItem` falls back to page 1 in the latter case. -/

structure OutlineItem where
  title : String
  dest : Option Nat
  items : List OutlineItem

/- `parseOutlineItem` (`pdfProcessor.ts` lines 22-74): `startPage` is the
resolved page index + 1, or 1 when the destination cannot be resolved;
`endPage` starts equal to `startPage`; the child at position `i` gets id
`{parentId}-{i}`. -/
mutual

def parseOutlineItem (level : Nat) (idPrefix : String) : OutlineItem → PdfChapter
  | .mk title dest items =>
    let startPage : Int := match dest with | some pageIndex => pageIndex + 1 | none => 1
    .mk idPrefix title startPage startPage level
      (parseOutlineItemList (level + 1) idPrefix 0 items)

def parseOutlineItemList (level : Nat) (idPrefix : String) (i : Nat) :
    List OutlineItem → List PdfChapter
  | [] => []
  | item :: rest =>
    parseOutlineItem level (idPrefix ++ "-" ++ toString i) item ::
      parseOutlineItemList level idPrefix (i + 1) rest

end

/- Top-level outline entry loop of `extractPdfChapters`: entry `i` is parsed
with id `chapter-{i}` at level 0. -/
def parseOutlineTopLevel (i : Nat) : List OutlineItem → List PdfChapter
  | [] => []
  | item :: rest =>
    parseOutlineItem 0 ("chapter-" ++ toString i) item :: parseOutlineTopLevel (i + 1) rest

/-- `extractPdfChapters` (`pdfProcessor.ts` lines 139-205), with the document
handle abstracted to its outline (`none` when `getOutline()` returns null)
and page count: a missing or empty outline raises the "no table of contents"
error, otherwise the outline is parsed and the end pages are resolved. -/
def extractPdfChapters (outline : Option (List OutlineItem)) (totalPages : Int) :
    Except String (List PdfChapter) :=
  match outline with
  | none => .error "此 PDF 文件没有目录信息，无法自动识别章节"
  | some items =>
    if items.isEmpty then .error "此 PDF 文件没有目录信息，无法自动识别章节"
    else .ok (calculateEndPages (parseOutlineTopLevel 0 items) totalPages)

/-! ## Derived tree vocabulary used by the statements -/

/- All nodes of a chapter tree in depth-first pre-order. -/
mutual

def pdfAllNodes : PdfChapter → List PdfChapter
  | .mk i t s e l children => .mk i t s e l children :: pdfAllNodesList children

def pdfAllNodesList : List PdfChapter → List PdfChapter
  | [] => []
  | c :: cs => pdfAllNodes c ++ pdfAllNodesList cs

end

/- Erase every `endPage` of a tree (used to state that the range resolver
changes nothing except `endPage` fields). -/
mutual

def pdfEraseEndPages : PdfChapter → PdfChapter
  | .mk i t s _ l children => .mk i t s 0 l (pdfEraseEndPagesList children)

def pdfEraseEndPagesList : List PdfChapter → List PdfChapter
  | [] => []
  | c :: cs => pdfEraseEndPages c :: pdfEraseEndPagesList cs

end

/-! ## Export task planner (`handleExport`, `App.tsx` lines 71-289)

`Chapter` mirrors the `Chapter` interface of `App.tsx`: the page fields and
`content` are optional (`startPage?: number` etc.). -/

structure Chapter where
  id : String
  title : String
  startPage : Option Int
  endPage : Option Int
  content : Option String
  level : Nat
  children : List Chapter
deriving Repr

mutual

def chapterDecEq : (a b : Chapter) → Decidable (a = b)
  | ⟨i,t,s,e,co,l,c⟩, ⟨i',t',s',e',co',l',c'⟩ =>
    have : Decidable (c = c') := chapterListDecEq c c'
    decidable_of_iff (i = i' ∧ t = t' ∧ s = s' ∧ e = e' ∧ co = co' ∧ l = l' ∧ c = c')
      (by rw [Chapter.mk.injEq])

def chapterListDecEq : (a b : List Chapter) → Decidable (a = b)
  | [], [] => isTrue rfl
  | [], _ :: _ => isFalse (by simp)
  | _ :: _, [] => isFalse (by simp)
  | x :: xs, y :: ys =>
    have : Decidable (x = y) := chapterDecEq x y
    have : Decidable (xs = ys) := chapterListDecEq xs ys
    decidable_of_iff (x = y ∧ xs = ys) (by rw [List.cons.injEq])

end

instance : DecidableEq Chapter := chapterDecEq

inductive FileType where
  | pdf
  | epub
deriving Repr, DecidableEq

inductive MergeMode where
  | separate
  | merge
deriving Repr, DecidableEq

/-- The `ExportTask` record built by `handleExport` (`App.tsx` lines 109-114). -/
structure ExportTask where
  name : String
  chapters : List Chapter
  parentTitles : List String
  chapterId : String
deriving Repr, DecidableEq

/-- JS truthiness of an optional number: `undefined` and `0` are falsy. -/
def truthyNum : Option Int → Bool
  | none => false
  | some n => n != 0

/-- JS truthiness of an optional string: `undefined` and `""` are falsy. -/
def truthyStr : Option String → Bool
  | none => false
  | some s => s != ""

/- `getAllChapterIds` (`App.tsx` lines 83-95): all node ids in depth-first
pre-order. -/
mutual

def chapterIdsOf : Chapter → List String
  | .mk i _ _ _ _ _ children => i :: getAllChapterIds children

def getAllChapterIds : List Chapter → List String
  | [] => []
  | c :: cs => chapterIdsOf c ++ getAllChapterIds cs

end

/- `getAllDescendants` (`App.tsx` lines 138-148 and 206-216): for each child,
push the child and then all of its descendants. -/
mutual

def getAllDescendants : Chapter → List Chapter
  | .mk _ _ _ _ _ _ children => descendantsOfList children

def descendantsOfList : List Chapter → List Chapter
  | [] => []
  | c :: cs => c :: (getAllDescendants c ++ descendantsOfList cs)

end

/-- The sort key of the comparator `(a, b) => (a.startPage || 0) - (b.startPage || 0)`
(`App.tsx` lines 101-106 and 183-188): a missing `startPage` counts as `0`. -/
def startKey (c : Chapter) : Int := c.startPage.getD 0

def leStartKey (a b : Chapter) : Prop := startKey a ≤ startKey b

instance : DecidableRel leStartKey := fun a b =>
  inferInstanceAs (Decidable (startKey a ≤ startKey b))

instance : IsTotal Chapter leStartKey := ⟨fun a b => le_total (startKey a) (startKey b)⟩

instance : IsTrans Chapter leStartKey := ⟨fun _ _ _ h h' => le_trans h h'⟩

/-- The per-file-type chapter sort of `handleExport`: for PDF a stable sort
by start page; for EPUB the comparator returns `0`, so the stable sort keeps
the original order. -/
def sortForFileType : FileType → List Chapter → List Chapter
  | .pdf, l => List.insertionSort leStartKey l
  | .epub, l => l

/-- `ch.startPage || Infinity` (`App.tsx` lines 159, 225, 236): a missing or
zero `startPage` becomes `Infinity`, represented by `none`. -/
def startOrInf (c : Chapter) : Option Int :=
  match c.startPage with
  | some n => if n = 0 then none else some n
  | none => none

/-- `Math.min` over extended integers (`none` is `Infinity`). -/
def minInf : List (Option Int) → Option Int
  | [] => none
  | a :: rest =>
    match a, minInf rest with
    | none, b => b
    | some x, none => some x
    | some x, some y => some (min x y)

/-- `Math.min(...l.map(ch => ch.startPage || Infinity))`. -/
def firstStartOf (l : List Chapter) : Option Int := minInf (l.map startOrInf)

/-- `a < b` where `b` may be `Infinity`. -/
def ltInf (a : Int) : Option Int → Bool
  | none => true
  | some m => a < m

/-- `b - 1` where `b` may be `Infinity` (`Infinity - 1` is `Infinity`). -/
def subOneInf : Option Int → Option Int
  | some m => some (m - 1)
  | none => none

/-- The mutable state of the task-organisation phase of `handleExport`: the
`processed` id set and the `exportTasks` accumulator. -/
structure PlanState where
  processed : List String
  tasks : List ExportTask
deriving Repr, DecidableEq

/-- `processChapter` (`App.tsx` lines 130-276). The branches, in source
order: already processed; merge-flagged with children (gather selected
descendants, optionally prepend a synthetic `_intro` chapter for the
parent's independent span, emit one merged task); selected with children
and not merge-flagged (emit a task holding only the `_intro` span when the
node has independent content, else emit nothing and leave the node
unprocessed); selected leaf (emit a single-chapter task); otherwise
nothing. -/
def processChapter (fileType : FileType) (selectedChapterIds : List String)
    (mergedChapterIds : List String) (chapter : Chapter) (parentTitles : List String)
    (st : PlanState) : PlanState :=
  if st.processed.contains chapter.id then st
  else
    let hasChildren := !chapter.children.isEmpty
    if mergedChapterIds.contains chapter.id && hasChildren then
      let allDescendants := getAllDescendants chapter
      let childrenToMerge := allDescendants.filter (fun ch => selectedChapterIds.contains ch.id)
      if !childrenToMerge.isEmpty then
        let independent : List Chapter :=
          if fileType == .pdf && truthyNum chapter.startPage && truthyNum chapter.endPage then
            let firstChildStartPage := firstStartOf childrenToMerge
            if ltInf (chapter.startPage.getD 0) firstChildStartPage then
              [⟨chapter.id ++ "_intro", chapter.title, chapter.startPage,
                subOneInf firstChildStartPage, none, chapter.level, []⟩]
            else []
          else if fileType == .epub && truthyStr chapter.content then
            [⟨chapter.id ++ "_intro", chapter.title, none, none, chapter.content,
              chapter.level, []⟩]
          else []
        let chaptersInTask := independent ++ sortForFileType fileType childrenToMerge
        { processed := (st.processed ++ [chapter.id]) ++ childrenToMerge.map (·.id),
          tasks := st.tasks ++ [⟨chapter.title, chaptersInTask, parentTitles, chapter.id⟩] }
      else st
    else if selectedChapterIds.contains chapter.id then
      if hasChildren then
        let allDescendants := getAllDescendants chapter
        let selectedChildren := allDescendants.filter (fun ch => selectedChapterIds.contains ch.id)
        let hasIndependentContent :=
          if fileType == .pdf && truthyNum chapter.startPage && truthyNum chapter.endPage
              && !selectedChildren.isEmpty then
            ltInf (chapter.startPage.getD 0) (firstStartOf selectedChildren)
          else fileType == .epub && truthyStr chapter.content
        if hasIndependentContent then
          let newTasks : List ExportTask :=
            if fileType == .pdf && truthyNum chapter.startPage && truthyNum chapter.endPage then
              [⟨chapter.title,
                [⟨chapter.id ++ "_intro", chapter.title, chapter.startPage,
                  subOneInf (firstStartOf selectedChildren), none, chapter.level, []⟩],
                parentTitles, chapter.id⟩]
            else if fileType == .epub && truthyStr chapter.content then
              [⟨chapter.title,
                [⟨chapter.id ++ "_intro", chapter.title, none, none, chapter.content,
                  chapter.level, []⟩],
                parentTitles, chapter.id⟩]
            else []
          { processed := st.processed ++ [chapter.id], tasks := st.tasks ++ newTasks }
        else st
      else
        { processed := st.processed ++ [chapter.id],
          tasks := st.tasks ++ [⟨chapter.title, [chapter], parentTitles, chapter.id⟩] }
    else st

/- `traverseChapters` (`App.tsx` lines 279-288): pre-order traversal; each
node is processed with the current parent-title chain, then its children are
traversed with the node's title appended to the chain. -/
mutual

def traverseChapter (fileType : FileType) (selectedChapterIds mergedChapterIds : List String) :
    Chapter → List String → PlanState → PlanState
  | .mk i t s e co l children, parentTitles, st =>
    let st' := processChapter fileType selectedChapterIds mergedChapterIds
      (.mk i t s e co l children) parentTitles st
    if children.isEmpty then st'
    else traverseChapters fileType selectedChapterIds mergedChapterIds children
      (parentTitles ++ [t]) st'

def traverseChapters (fileType : FileType) (selectedChapterIds mergedChapterIds : List String) :
    List Chapter → List String → PlanState → PlanState
  | [], _, st => st
  | c :: cs, parentTitles, st =>
    traverseChapters fileType selectedChapterIds mergedChapterIds cs parentTitles
      (traverseChapter fileType selectedChapterIds mergedChapterIds c parentTitles st)

end

/-- The task-organisation phase of `handleExport` (`App.tsx` lines 71-289):
empty selection returns immediately; a full selection (by count) in `merge`
mode yields the single generically named merged task; otherwise the tree is
traversed with `processChapter`. -/
def planExport (fileType : FileType) (chapters : List Chapter) (selectedChapters : List Chapter)
    (mergeMode : MergeMode) (mergedChapterIds : List String) : List ExportTask :=
  if selectedChapters.isEmpty then []
  else
    let selectedChapterIds := selectedChapters.map (·.id)
    let allChapterIds := getAllChapterIds chapters
    let isFullSelection := selectedChapters.length == allChapterIds.length
    let sortedChapters := sortForFileType fileType selectedChapters
    if isFullSelection && mergeMode == .merge then
      [⟨"合并章节", sortedChapters, [], "merged"⟩]
    else
      (traverseChapters fileType selectedChapterIds mergedChapterIds chapters [] ⟨[], []⟩).tasks

/-! ## Filename builder (`filenameUtils.ts`) -/

/-- One character of `sanitizeFilename`'s three character-class
replacements (`[/\\]`, `[<>:"|?*]`, ASCII control characters): the classes
are disjoint and `_` is in none of them, so the three sequential global
replaces act as one character map. -/
def sanitizeChar (c : Char) : Char :=
  if c = '/' || c = '\\' || c = '<' || c = '>' || c = ':' || c = '"' || c = '|' || c = '?'
      || c = '*' || c.toNat < 32 then '_' else c

/-- `sanitizeFilename` (`filenameUtils.ts` lines 5-23): replace illegal
characters by `_`, trim surrounding blanks (every ASCII control character
has already become `_`, so only the space character remains to trim; exotic
Unicode whitespace is not modelled), strip leading/trailing dots, truncate
to 200 characters. -/
def sanitizeFilename (filename : String) : String :=
  let replaced := filename.data.map sanitizeChar
  let trimmed := ((replaced.dropWhile (· = ' ')).reverse.dropWhile (· = ' ')).reverse
  let noDots := ((trimmed.dropWhile (· = '.')).reverse.dropWhile (· = '.')).reverse
  String.mk (noDots.take 200)

/-- `String(index + 1).padStart(2, '0')`. -/
def indexPrefix (index : Nat) : String :=
  let s := toString (index + 1)
  String.mk (List.replicate (2 - s.length) '0') ++ s

/-- `buildHierarchicalFilename` (`filenameUtils.ts` lines 29-42). -/
def buildHierarchicalFilename (index : Nat) (parentTitles : List String)
    (currentTitle : String) (extension : String := ".pdf") : String :=
  indexPrefix index ++ "_" ++
    String.intercalate "_" ((parentTitles ++ [currentTitle]).map sanitizeFilename) ++ extension

/-! ## EPUB navigation parsing and content loading (`epubProcessor.ts`)

`EpubChapter` mirrors the exported interface of `epubProcessor.ts`. -/

structure EpubChapter where
  id : String
  title : String
  href : String
  anchor : Option String
  content : Option String
  level : Nat
  children : List EpubChapter
deriving Repr

mutual

def epubChapterDecEq : (a b : EpubChapter) → Decidable (a = b)
  | ⟨i,t,h,an,co,l,c⟩, ⟨i',t',h',an',co',l',c'⟩ =>
    have : Decidable (c = c') := epubChapterListDecEq c c'
    decidable_of_iff (i = i' ∧ t = t' ∧ h = h' ∧ an = an' ∧ co = co' ∧ l = l' ∧ c = c')
      (by rw [EpubChapter.mk.injEq])

def epubChapterListDecEq : (a b : List EpubChapter) → Decidable (a = b)
  | [], [] => isTrue rfl
  | [], _ :: _ => isFalse (by simp)
  | _ :: _, [] => isFalse (by simp)
  | x :: xs, y :: ys =>
    have : Decidable (x = y) := epubChapterDecEq x y
    have : Decidable (xs = ys) := epubChapterListDecEq xs ys
    decidable_of_iff (x = y ∧ xs = ys) (by rw [List.cons.injEq])

end

instance : DecidableEq EpubChapter := epubChapterDecEq

/-- `String.prototype.split(sep)` for a single-character separator, at the
character-list level: `"a#b#c".split('#')` is `["a", "b", "c"]`, and the
empty string splits to `[""]`. -/
def jsSplit (sep : Char) : List Char → List (List Char)
  | [] => [[]]
  | c :: rest =>
    let r := jsSplit sep rest
    if c = sep then [] :: r
    else
      match r with
      | [] => [[c]]
      | h :: t => (c :: h) :: t

/-- The navigation-target splitting of `parseNavPoint` (`epubProcessor.ts`
lines 143-146) and `parseNavList` (lines 213-216):
`hrefFull.includes('#') ? [hrefFull.split('#')[0], '#' + hrefFull.split('#')[1]] : [hrefFull, undefined]`,
at the character-list level. -/
def splitHrefFull (hrefFull : List Char) : List Char × Option (List Char) :=
  if hrefFull.contains '#' then
    let parts := jsSplit '#' hrefFull
    (parts.headD [], some ('#' :: (parts.getD 1 [])))
  else (hrefFull, none)

/-- The navigation-source selection of `extractEpubChapters`
(`epubProcessor.ts` lines 280-297), with the zip reading and DOM parsing
abstracted: `nav` is the result of `parseNav` when the manifest carries a
`properties="nav"` item (`none` when it does not), `ncx` likewise for the
NCX item. The EPUB3 nav document is preferred; if it yields nothing the NCX
is parsed; if still no chapters were produced the extraction fails with the
"no table of contents" error. -/
def extractEpubChapterTree (nav ncx : Option (List EpubChapter)) :
    Except String (List EpubChapter) :=
  let chapters := nav.getD []
  let chapters := if chapters.isEmpty then ncx.getD [] else chapters
  if chapters.isEmpty then .error "此 EPUB 文件没有目录信息，无法自动识别章节"
  else .ok chapters

/- The leaf collection of `extractEpubChapters` (lines 300-312), identical
in shape to the PDF one. -/
mutual

def collectEpubLeaves : EpubChapter → List EpubChapter
  | .mk i t h an co l children =>
    if children.isEmpty then [.mk i t h an co l children]
    else collectEpubLeavesList children

def collectEpubLeavesList : List EpubChapter → List EpubChapter
  | [] => []
  | c :: cs => collectEpubLeaves c ++ collectEpubLeavesList cs

end

/-- `basePath ? `${basePath}/${chapter.href}` : chapter.href` (line 329):
the empty base path is falsy. -/
def chapterFullPath (basePath href : String) : String :=
  if basePath = "" then href else basePath ++ "/" ++ href

/-- `leafChapters.slice(i, min(i + batchSize, length))` chunking of the
content-loading loop (lines 323-324), written with an accumulator so that it
is structurally recursive: elements are collected into the current batch,
which is flushed when it reaches `batchSize`; for the `batchSize = 10` used
by the source this yields exactly the slices `[0,10), [10,20), ...`. -/
def chunkAux (batchSize : Nat) : List EpubChapter → List EpubChapter → List (List EpubChapter)
  | [], acc => if acc.isEmpty then [] else [acc.reverse]
  | c :: cs, acc =>
    let acc' := c :: acc
    if acc'.length = batchSize then acc'.reverse :: chunkAux batchSize cs []
    else chunkAux batchSize cs acc'

def chunkList (batchSize : Nat) (l : List EpubChapter) : List (List EpubChapter) :=
  chunkAux batchSize l []

/-- One batch of the content-loading loop of `extractEpubChapters`
(`epubProcessor.ts` lines 326-358), run under `Promise.all`.

JavaScript's single-threaded scheduling makes the batch deterministic: each
of the batch's async closures first runs synchronously up to its first
`await` — in particular the `fileCache.has(chapterPath)` check and the
`zip.file(chapterPath)` call — before *any* file load completes and writes
to the cache.  So every cache-miss check in the batch sees the cache as it
was at the start of the batch, every chapter that misses performs its own
load, and all cache writes and content assignments happen afterwards.
The archive is a partial map `zip` from path to file text;
`extractContentByAnchor` (DOM-based, lines 74-129) is abstracted as the
function parameter `extractBy`.  The result is the new cache, the leaves
with `content` populated, and the list of paths loaded from the archive
(one entry per performed load, duplicates included). -/
def runLoadBatch (zip : String → Option String) (extractBy : String → String → String)
    (basePath : String) (cache : List (String × String)) (batch : List EpubChapter) :
    List (String × String) × List EpubChapter × List String :=
  let misses := batch.filter fun ch =>
    (List.lookup (chapterFullPath basePath ch.href) cache).isNone
  let loads := (misses.map fun ch => chapterFullPath basePath ch.href).filter fun p =>
    (zip p).isSome
  let cache' := cache ++ loads.filterMap fun p => (zip p).map fun text => (p, text)
  let updated := batch.map fun ch =>
    match List.lookup (chapterFullPath basePath ch.href) cache' with
    | some fullContent =>
      let newContent :=
        if truthyStr ch.anchor then extractBy fullContent (ch.anchor.getD "") else fullContent
      { ch with content := some newContent }
    | none => ch
  (cache', updated, loads)

/-- The whole batched content-loading loop (lines 315-367): batches of 10,
an initially empty cache shared across batches of one extraction call. -/
def loadLeafContents (zip : String → Option String) (extractBy : String → String → String)
    (basePath : String) (leafChapters : List EpubChapter) :
    List EpubChapter × List String :=
  let batches := chunkList 10 leafChapters
  let result := batches.foldl
    (fun (acc : List (String × String) × List EpubChapter × List String) batch =>
      let r := runLoadBatch zip extractBy basePath acc.1 batch
      (r.1, acc.2.1 ++ r.2.1, acc.2.2 ++ r.2.2))
    ([], [], [])
  result.2

/-! ## Additional ordering vocabulary used by the statements -/

/-- Leaf order by `startPage` (untagged), used to state properties about
"the leaves sorted by `startPage`". -/
def leStartC (a b : PdfChapter) : Prop := a.startPage ≤ b.startPage

instance : DecidableRel leStartC := fun a b =>
  inferInstanceAs (Decidable (a.startPage ≤ b.startPage))

instance : IsTotal PdfChapter leStartC := ⟨fun a b => le_total a.startPage b.startPage⟩

instance : IsTrans PdfChapter leStartC := ⟨fun _ _ _ h h' => le_trans h h'⟩

/-! ## C5 — extraction fails on an empty table of contents -/

/-- C5: for both input formats, if parsing produces zero top-level chapter
entries the extraction fails with the descriptive "no table of contents"
error, and a successful extraction never returns an empty tree. -/
theorem extract_error_on_empty_toc :
    (∀ (outline : Option (List OutlineItem)) (totalPages : Int),
      (outline.getD []).isEmpty →
        extractPdfChapters outline totalPages =
          .error "此 PDF 文件没有目录信息，无法自动识别章节") ∧
    (∀ (outline : Option (List OutlineItem)) (totalPages : Int) (cs : List PdfChapter),
      extractPdfChapters outline totalPages = .ok cs → cs ≠ []) ∧
    (∀ (nav ncx : Option (List EpubChapter)),
      (nav.getD []).isEmpty → (ncx.getD []).isEmpty →
        extractEpubChapterTree nav ncx =
          .error "此 EPUB 文件没有目录信息，无法自动识别章节") ∧
    (∀ (nav ncx : Option (List EpubChapter)) (cs : List EpubChapter),
      extractEpubChapterTree nav ncx = .ok cs → cs ≠ []) := by
  refine ⟨?_, ?_, ?_, ?_⟩
  · intro outline totalPages h
    match outline with
    | none => rfl
    | some items =>
      simp only [Option.getD_some] at h
      simp [extractPdfChapters, h]
  · intro outline totalPages cs h
    match outline with
    | none => simp [extractPdfChapters] at h
    | some items =>
      match items with
      | [] => simp [extractPdfChapters] at h
      | item :: rest =>
        simp only [extractPdfChapters, List.isEmpty_cons, Bool.false_eq_true, if_false,
          Except.ok.injEq] at h
        subst h
        simp only [calculateEndPages, parseOutlineTopLevel, assignLeafEndPagesList]
        cases hp : parseOutlineItem 0 ("chapter-" ++ toString 0) item with
        | mk i t s e l children =>
        cases children with
        | nil => simp [assignLeafEndPages, setParentEndPagesList]
        | cons c cc => simp [assignLeafEndPages, setParentEndPagesList]
  · intro nav ncx h h'
    simp only [List.isEmpty_iff] at h h'
    simp [extractEpubChapterTree, h, h']
  · intro nav ncx cs h
    unfold extractEpubChapterTree at h
    rcases hn : nav.getD [] with _ | ⟨c, cl⟩ <;> rw [hn] at h
    · rcases hx : ncx.getD [] with _ | ⟨d, dl⟩ <;> rw [hx] at h
      · simp at h
      · simp only [List.isEmpty_nil, if_true, List.isEmpty_cons, Bool.false_eq_true, if_false,
          Except.ok.injEq] at h
        subst h
        simp
    · simp only [List.isEmpty_cons, Bool.false_eq_true, if_false, Except.ok.injEq] at h
      subst h
      simp

/-- Witness for C5 at concrete inputs: a PDF handle whose outline is `null`
and an EPUB with neither nav document nor NCX. -/
theorem extract_error_on_empty_toc_witness :
    extractPdfChapters none 10 = .error "此 PDF 文件没有目录信息，无法自动识别章节" ∧
    extractEpubChapterTree none none = .error "此 EPUB 文件没有目录信息，无法自动识别章节" :=
  ⟨extract_error_on_empty_toc.1 none 10 rfl,
   extract_error_on_empty_toc.2.2.1 none none rfl rfl⟩

/-! ## C7 — splitting a navigation target on `#` -/

theorem jsSplit_ne_nil (sep : Char) (l : List Char) : jsSplit sep l ≠ [] := by
  induction l with
  | nil => simp [jsSplit]
  | cons c rest ih =>
    rw [jsSplit]
    split
    · simp
    · match h : jsSplit sep rest with
      | [] => exact absurd h ih
      | hd :: tl => simp

theorem jsSplit_sep_free (sep : Char) (a b : List Char) (ha : sep ∉ a) :
    jsSplit sep (a ++ sep :: b) = a :: jsSplit sep b := by
  induction a with
  | nil => simp [jsSplit]
  | cons c a' ih =>
    have hc : c ≠ sep := fun h => ha (h ▸ List.mem_cons_self c a')
    have ha' : sep ∉ a' := fun h => ha (List.mem_cons_of_mem c h)
    rw [List.cons_append, jsSplit, ih ha']
    simp [hc]

theorem jsSplit_head (sep : Char) (b : List Char) :
    ∃ tl, jsSplit sep b = b.takeWhile (· ≠ sep) :: tl := by
  induction b with
  | nil => exact ⟨[], rfl⟩
  | cons c rest ih =>
    by_cases hc : c = sep
    · refine ⟨jsSplit sep rest, ?_⟩
      subst hc
      simp [jsSplit, List.takeWhile]
    · obtain ⟨tl, htl⟩ := ih
      refine ⟨tl, ?_⟩
      rw [jsSplit, if_neg hc, htl]
      simp [List.takeWhile, hc]

/-- C7 (amended): a navigation target without `#` is kept whole with no
anchor; a target `a#b` (with `a` free of `#`) is split into resource path
`a` and anchor `'#'` followed by the part of `b` before the next `#` (not
everything after the first `#`: a second `#` and what follows it are
dropped). -/
theorem splitHrefFull_spec :
    (∀ s : List Char, '#' ∉ s → splitHrefFull s = (s, none)) ∧
    (∀ a b : List Char, '#' ∉ a →
      splitHrefFull (a ++ '#' :: b) = (a, some ('#' :: b.takeWhile (· ≠ '#')))) := by
  constructor
  · intro s hs
    simp [splitHrefFull, hs]
  · intro a b ha
    have hmem : '#' ∈ a ++ '#' :: b := List.mem_append_right a (List.mem_cons_self _ _)
    have hcon : (a ++ '#' :: b).contains '#' = true := by simp
    obtain ⟨tl, htl⟩ := jsSplit_head '#' b
    rw [splitHrefFull, if_pos hcon, jsSplit_sep_free '#' a b ha, htl]
    simp

/-- Witness for C7 (amended) at the concrete target `"x#y"`. -/
theorem splitHrefFull_spec_witness :
    splitHrefFull ('x' :: '#' :: 'y' :: []) = (['x'], some ['#', 'y']) := by
  have h := splitHrefFull_spec.2 ['x'] ['y'] (by decide)
  simpa using h

/-- C7 (counterexample to the claim as stated): on the target `"a#b#c"` the
code produces the anchor `"#b"`, not `"#b#c"` — the characters after the
second `#` are dropped, while the claim says the anchor is everything after
the first `#` including further `#` characters. -/
theorem splitHrefFull_counterexample :
    splitHrefFull ('a' :: '#' :: 'b' :: '#' :: 'c' :: []) = (['a'], some ['#', 'b']) ∧
    (['#', 'b'] : List Char) ≠ ['#', 'b', '#', 'c'] := by
  constructor
  · rfl
  · decide

/-! ## C6 — duplicate loads of a shared resource within one batch -/

/-- A concrete two-anchor EPUB: both leaves point into the single resource
`ch.html` through different anchors. -/
def epubDemoLeaves : List EpubChapter :=
  [⟨"chapter-0", "S1", "ch.html", some "#s1", none, 0, []⟩,
   ⟨"chapter-1", "S2", "ch.html", some "#s2", none, 0, []⟩]

/-- The archive holding that one resource. -/
def epubDemoZip : String → Option String :=
  fun p => if p = "ch.html" then some "<p>text</p>" else none

/-- A concrete stand-in for the DOM-based `extractContentByAnchor`. -/
def epubDemoExtract : String → String → String :=
  fun text anchor => anchor ++ ":" ++ text

/-- C6: the content loader reads `ch.html` twice, not once, when the two
leaves sharing it fall into the same concurrent batch — both cache-miss
checks run (synchronously) before either load completes and fills the
cache, so the per-path deduplication the cache is meant to provide fails
inside a batch.  Both leaves do end up with content derived from the same
file text. -/
theorem loadLeafContents_duplicate_read :
    (loadLeafContents epubDemoZip epubDemoExtract "" epubDemoLeaves).2 =
      ["ch.html", "ch.html"] ∧
    ((loadLeafContents epubDemoZip epubDemoExtract "" epubDemoLeaves).2.count "ch.html" = 2) ∧
    (loadLeafContents epubDemoZip epubDemoExtract "" epubDemoLeaves).1 =
      [⟨"chapter-0", "S1", "ch.html", some "#s1", some "#s1:<p>text</p>", 0, []⟩,
       ⟨"chapter-1", "S2", "ch.html", some "#s2", some "#s2:<p>text</p>", 0, []⟩] := by
  refine ⟨rfl, rfl, rfl⟩

/-! ## C8 — determinism of export planning -/

/-- C8: export planning is deterministic — two runs of the planner on equal
resolved trees, equal selections, equal merge-flag sets and equal modes
produce identical ordered task lists, and the filename builder then produces
identical filenames for them.  (The embedded planner is a pure function of
exactly these four inputs plus the file type; the source's `processed` set
and task array are created afresh inside each `handleExport` call.) -/
theorem planExport_deterministic
    (ft ft' : FileType) (chapters chapters' selected selected' : List Chapter)
    (mode mode' : MergeMode) (flags flags' : List String)
    (hft : ft = ft') (hch : chapters = chapters') (hsel : selected = selected')
    (hmode : mode = mode') (hflags : flags = flags') :
    planExport ft chapters selected mode flags = planExport ft' chapters' selected' mode' flags' ∧
    ((planExport ft chapters selected mode flags).enum.map fun p =>
        buildHierarchicalFilename p.1 p.2.parentTitles p.2.name) =
      ((planExport ft' chapters' selected' mode' flags').enum.map fun p =>
        buildHierarchicalFilename p.1 p.2.parentTitles p.2.name) := by
  subst hft hch hsel hmode hflags
  exact ⟨rfl, rfl⟩

/-- Witness for C8 at a concrete input. -/
theorem planExport_deterministic_witness :
    planExport .pdf [⟨"chapter-0", "A", some 1, some 9, none, 0, []⟩]
        [⟨"chapter-0", "A", some 1, some 9, none, 0, []⟩] .separate [] =
      planExport .pdf [⟨"chapter-0", "A", some 1, some 9, none, 0, []⟩]
        [⟨"chapter-0", "A", some 1, some 9, none, 0, []⟩] .separate [] :=
  (planExport_deterministic .pdf .pdf _ _ _ _ .separate .separate [] []
    rfl rfl rfl rfl rfl).1

/-! ## C1 — whole-tree merge -/

/-- A two-node tree: a parent with one child (equal page spans). -/
def planDemoChild : Chapter := ⟨"chapter-0-0", "C", some 1, some 2, none, 1, []⟩

def planDemoParent : Chapter := ⟨"chapter-0", "P", some 1, some 2, none, 0, [planDemoChild]⟩

/-- C1 (counterexample to the claim as stated): under full selection and
`merge` mode the single emitted task's content units are all *selected
nodes*, not the leaf chapters — on a parent-with-child tree the non-leaf
parent appears as a content unit. -/
theorem planExport_full_merge_counterexample :
    planExport .pdf [planDemoParent] [planDemoParent, planDemoChild] .merge [] =
      [⟨"合并章节", [planDemoParent, planDemoChild], [], "merged"⟩] ∧
    planDemoParent.children ≠ [] ∧
    (∃ t ∈ planExport .pdf [planDemoParent] [planDemoParent, planDemoChild] .merge [],
      ∃ u ∈ t.chapters, u.children ≠ []) := by
  refine ⟨rfl, by decide, ?_⟩
  refine ⟨_, List.mem_singleton.mpr rfl, planDemoParent, ?_, by decide⟩
  decide

/-- C1 (amended): if the selection is exactly the node set of the tree (one
entry per node, as the UI sends it) and the mode is `merge`, the planner
emits exactly one task, named generically (`合并章节`) with an empty
parent-title chain, whose ordered content units are all the *selected
nodes* (leaves and non-leaves alike): a permutation of the selection,
sorted by start page for PDF and in the given (document) order for EPUB. -/
theorem planExport_full_merge
    (ft : FileType) (chapters selectedChapters : List Chapter) (flags : List String)
    (hne : selectedChapters ≠ [])
    (hsel : selectedChapters.map (·.id) = getAllChapterIds chapters) :
    ∃ t, planExport ft chapters selectedChapters .merge flags = [t] ∧
      t.name = "合并章节" ∧ t.parentTitles = [] ∧ t.chapterId = "merged" ∧
      t.chapters.Perm selectedChapters ∧
      (ft = .pdf → t.chapters.Sorted leStartKey) ∧
      (ft = .epub → t.chapters = selectedChapters) := by
  have hlen : selectedChapters.length = (getAllChapterIds chapters).length := by
    rw [← hsel, List.length_map]
  refine ⟨⟨"合并章节", sortForFileType ft selectedChapters, [], "merged"⟩, ?_, rfl, rfl, rfl,
    ?_, ?_, ?_⟩
  · rw [planExport, if_neg (by simpa using hne)]
    simp [hlen]
  · cases ft
    · exact List.perm_insertionSort leStartKey selectedChapters
    · exact List.Perm.refl selectedChapters
  · intro hft
    subst hft
    exact List.sorted_insertionSort leStartKey selectedChapters
  · intro hft
    subst hft
    rfl

/-- Witness for C1 (amended): the spec's three-leaf flat tree under full
selection and `merge` mode. -/
theorem planExport_full_merge_witness :
    ([⟨"chapter-0", "A", some 1, some 9, none, 0, []⟩,
      ⟨"chapter-1", "B", some 10, some 19, none, 0, []⟩,
      ⟨"chapter-2", "C", some 20, some 30, none, 0, []⟩] : List Chapter) ≠ [] ∧
    ∃ t, planExport .pdf
        [⟨"chapter-0", "A", some 1, some 9, none, 0, []⟩,
         ⟨"chapter-1", "B", some 10, some 19, none, 0, []⟩,
         ⟨"chapter-2", "C", some 20, some 30, none, 0, []⟩]
        [⟨"chapter-0", "A", some 1, some 9, none, 0, []⟩,
         ⟨"chapter-1", "B", some 10, some 19, none, 0, []⟩,
         ⟨"chapter-2", "C", some 20, some 30, none, 0, []⟩] .merge [] = [t] ∧
      t.name = "合并章节" ∧ t.parentTitles = [] ∧ t.chapterId = "merged" ∧
      t.chapters.Perm
        [⟨"chapter-0", "A", some 1, some 9, none, 0, []⟩,
         ⟨"chapter-1", "B", some 10, some 19, none, 0, []⟩,
         ⟨"chapter-2", "C", some 20, some 30, none, 0, []⟩] ∧
      (FileType.pdf = .pdf → t.chapters.Sorted leStartKey) ∧
      (FileType.pdf = .epub → t.chapters =
        [⟨"chapter-0", "A", some 1, some 9, none, 0, []⟩,
         ⟨"chapter-1", "B", some 10, some 19, none, 0, []⟩,
         ⟨"chapter-2", "C", some 20, some 30, none, 0, []⟩]) :=
  ⟨by decide, planExport_full_merge .pdf _ _ [] (by decide) (by decide)⟩

/-! ## C3 — independent-content (`_intro`) unit of a merge-flagged node -/

/-- C3 (amended): when `processChapter` reaches an unprocessed merge-flagged
node `X` with children and a nonempty selected-descendant list `ctm` (on a
PDF tree, with `X.startPage = some s`, `1 ≤ s`, `X.endPage = some e` and
the selected descendants' minimum start page `m` finite), it emits exactly
one task; the task's unit list is the sorted selected descendants with a
synthetic `_intro` chapter covering `[s, m - 1]` prepended exactly when
`e ≠ 0` AND `s < m` — JS truthiness of `endPage` is part of the guard, so
a node whose resolved `endPage` is `0` (which out-of-order outlines can
produce, see the counterexample) gets no `_intro` unit even when `s < m`;
when the combined condition fails, no `_intro` unit occurs in the task at
all. -/
theorem processChapter_merge_intro
    (sel mrg : List String) (X : Chapter) (pts : List String) (st : PlanState)
    (s e m : Int) (ctm : List Chapter)
    (hctm : ctm = (getAllDescendants X).filter (fun ch => sel.contains ch.id))
    (hproc : st.processed.contains X.id = false)
    (hflag : mrg.contains X.id = true)
    (hchild : X.children ≠ [])
    (hsp : X.startPage = some s) (hs1 : 1 ≤ s)
    (hep : X.endPage = some e)
    (hne : ctm ≠ [])
    (hmin : firstStartOf ctm = some m) :
    processChapter .pdf sel mrg X pts st =
      { processed := (st.processed ++ [X.id]) ++ ctm.map (·.id),
        tasks := st.tasks ++
          [⟨X.title,
            (if e ≠ 0 ∧ s < m then
              [⟨X.id ++ "_intro", X.title, some s, some (m - 1), none, X.level, []⟩]
             else []) ++ List.insertionSort leStartKey ctm, pts, X.id⟩] } ∧
    (e ≠ 0 ∧ s < m →
      ((if e ≠ 0 ∧ s < m then
          [(⟨X.id ++ "_intro", X.title, some s, some (m - 1), none, X.level, []⟩ : Chapter)]
        else []) ++ List.insertionSort leStartKey ctm).head? =
        some (⟨X.id ++ "_intro", X.title, some s, some (m - 1), none, X.level, []⟩ : Chapter)) ∧
    (¬ (e ≠ 0 ∧ s < m) → (∀ d ∈ ctm, d.id ≠ X.id ++ "_intro") →
      ∀ u ∈ (if e ≠ 0 ∧ s < m then
          [(⟨X.id ++ "_intro", X.title, some s, some (m - 1), none, X.level, []⟩ : Chapter)]
        else []) ++ List.insertionSort leStartKey ctm, u.id ≠ X.id ++ "_intro") := by
  have hhc : X.children.isEmpty = false := by
    rcases hx : X.children with _ | ⟨c, cc⟩
    · exact absurd hx hchild
    · rfl
  have hctmne : ctm.isEmpty = false := by
    rcases hx : ctm with _ | ⟨c, cc⟩
    · exact absurd hx hne
    · rfl
  have hs0 : s ≠ 0 := by omega
  have hst : truthyNum X.startPage = true := by
    rw [hsp]
    simpa [truthyNum] using hs0
  have hgd : X.startPage.getD 0 = s := by rw [hsp]; rfl
  refine ⟨?_, ?_, ?_⟩
  · by_cases he : e = 0
    · have hepf : truthyNum X.endPage = false := by rw [hep, he]; rfl
      have hpe : (FileType.pdf == FileType.epub) = false := by decide
      rw [processChapter, hproc]
      simp only [Bool.false_eq_true, if_false]
      rw [if_pos (by rw [hflag, hhc]; rfl)]
      rw [← hctm, if_pos (by rw [hctmne]; rfl)]
      simp only [hepf, Bool.and_false, hpe, Bool.false_and, Bool.false_eq_true, if_false,
        sortForFileType]
      rw [if_neg (by simp [he])]
    · have hept : truthyNum X.endPage = true := by
        rw [hep]
        simpa [truthyNum] using he
      rw [processChapter, hproc]
      simp only [Bool.false_eq_true, if_false]
      rw [if_pos (by rw [hflag, hhc]; rfl)]
      rw [← hctm, if_pos (by rw [hctmne]; rfl)]
      simp only [beq_self_eq_true, Bool.true_and, hst, hept, Bool.and_self, if_true]
      rw [hmin, hgd, hsp]
      simp only [ltInf, subOneInf, sortForFileType]
      by_cases hlt : s < m
      · rw [if_pos (by simpa using hlt), if_pos ⟨he, hlt⟩]
      · rw [if_neg (by simpa using hlt), if_neg (fun h => hlt h.2)]
  · rintro ⟨he, hlt⟩
    rw [if_pos ⟨he, hlt⟩]
    rfl
  · intro hcond hids u hu
    rw [if_neg hcond, List.nil_append] at hu
    have : u ∈ ctm := (List.perm_insertionSort leStartKey ctm).mem_iff.mp hu
    exact hids u this

/-- Witness for C3: a merge-flagged parent `P` spanning pages 1-4 with one
selected child spanning 2-4 — `endPage = 4` is nonzero and `1 < 2`, so the
independent span `[1, 1]` is prepended. -/
def c3DemoChild : Chapter := ⟨"chapter-0-0", "C", some 2, some 4, none, 1, []⟩

def c3DemoParent : Chapter := ⟨"chapter-0", "P", some 1, some 4, none, 0, [c3DemoChild]⟩

theorem processChapter_merge_intro_witness :
    ([c3DemoChild] = (getAllDescendants c3DemoParent).filter
        (fun ch => ["chapter-0-0"].contains ch.id)) ∧
    processChapter .pdf ["chapter-0-0"] ["chapter-0"] c3DemoParent [] ⟨[], []⟩ =
      { processed := (([] : List String) ++ ["chapter-0"]) ++ [c3DemoChild].map (·.id),
        tasks := ([] : List ExportTask) ++
          [⟨"P", (if (4 : Int) ≠ 0 ∧ (1 : Int) < 2 then
              [⟨"chapter-0" ++ "_intro", "P", some 1, some ((2 : Int) - 1), none, 0, []⟩]
            else []) ++
            List.insertionSort leStartKey [c3DemoChild], [], "chapter-0"⟩] } :=
  ⟨by decide,
   (processChapter_merge_intro ["chapter-0-0"] ["chapter-0"] c3DemoParent [] ⟨[], []⟩ 1 4 2
      [c3DemoChild] (by decide) (by decide) (by decide) (by decide) (by decide) (by decide)
      (by decide) (by decide) (by decide)).1⟩

/-- Counterexample data for C3: an out-of-order outline.  Parent `P` starts
at page 1 with children `M` (page 2) and `L` (page 1, out of order); the
top-level `Z` follows, also at page 1. -/
def c3OutlinePdf : List PdfChapter :=
  [⟨"chapter-0", "P", 1, 1, 0,
     [⟨"chapter-0-0", "M", 2, 2, 1, []⟩, ⟨"chapter-0-1", "L", 1, 1, 1, []⟩]⟩,
   ⟨"chapter-1", "Z", 1, 1, 0, []⟩]

def c3M : Chapter := ⟨"chapter-0-0", "M", some 2, some 3, none, 1, []⟩

def c3L : Chapter := ⟨"chapter-0-1", "L", some 1, some 0, none, 1, []⟩

def c3P : Chapter := ⟨"chapter-0", "P", some 1, some 0, none, 0, [c3M, c3L]⟩

/- The PDF pipeline hands the resolver's output to the planner unchanged
(`setChapters(result.chapters)` in `App.tsx`): every resolved page number
is present and no text content is attached. -/
mutual

def pdfToChapter : PdfChapter → Chapter
  | .mk i t s e l children => ⟨i, t, some s, some e, none, l, pdfToChapterList children⟩

def pdfToChapterList : List PdfChapter → List Chapter
  | [] => []
  | c :: cs => pdfToChapter c :: pdfToChapterList cs

end

/-- Counterexample for C3 (the original iff): resolving the out-of-order
outline `c3OutlinePdf` over 3 pages gives parent `P` the end page `0` (its
last child `L` starts at page 1, is assigned `Z.startPage - 1 = 0`, and `P`
inherits that value).  With child `M` selected and `P` merge-flagged,
`P.startPage = 1` is strictly below the first selected descendant's start
page `2`, yet the emitted task contains no `_intro` unit: the JS truthiness
guard on `endPage` (here `0`, falsy) suppresses it. -/
theorem processChapter_merge_intro_counterexample :
    pdfToChapterList (calculateEndPages c3OutlinePdf 3) =
      [c3P, ⟨"chapter-1", "Z", some 1, some 1, none, 0, []⟩] ∧
    c3P.startPage = some 1 ∧
    firstStartOf ((getAllDescendants c3P).filter
      (fun ch => (["chapter-0-0"] : List String).contains ch.id)) = some 2 ∧
    ((1 : Int) < 2) ∧
    processChapter .pdf ["chapter-0-0"] ["chapter-0"] c3P [] ⟨[], []⟩ =
      ⟨["chapter-0", "chapter-0-0"], [⟨"P", [c3M], [], "chapter-0"⟩]⟩ ∧
    ∀ u ∈ [c3M], u.id ≠ "chapter-0" ++ "_intro" := by
  decide

/-! ## C4 — parent end pages -/

mutual

theorem pdfEraseEndPages_assign (m : List (Nat × Int)) :
    ∀ (c : PdfChapter) (n : Nat),
      pdfEraseEndPages (assignLeafEndPages m c n).1 = pdfEraseEndPages c
  | .mk i t s e l [], n => by
    rw [assignLeafEndPages]
    rfl
  | .mk i t s e l (c :: cs), n => by
    rw [assignLeafEndPages, pdfEraseEndPages, pdfEraseEndPages]
    rw [pdfEraseEndPagesList_assign m (c :: cs) n]

theorem pdfEraseEndPagesList_assign (m : List (Nat × Int)) :
    ∀ (l : List PdfChapter) (n : Nat),
      pdfEraseEndPagesList (assignLeafEndPagesList m l n).1 = pdfEraseEndPagesList l
  | [], n => rfl
  | c :: cs, n => by
    rw [assignLeafEndPagesList, pdfEraseEndPagesList, pdfEraseEndPagesList]
    rw [pdfEraseEndPages_assign m c n, pdfEraseEndPagesList_assign m cs _]

end

mutual

theorem pdfEraseEndPages_setParent :
    ∀ c : PdfChapter, pdfEraseEndPages (setParentEndPages c) = pdfEraseEndPages c
  | .mk i t s e l [] => rfl
  | .mk i t s e l (c :: cs) => by
    rw [setParentEndPages, pdfEraseEndPages, pdfEraseEndPages]
    rw [pdfEraseEndPagesList_setParent (c :: cs)]

theorem pdfEraseEndPagesList_setParent :
    ∀ l : List PdfChapter, pdfEraseEndPagesList (setParentEndPagesList l) = pdfEraseEndPagesList l
  | [] => rfl
  | c :: cs => by
    rw [setParentEndPagesList, pdfEraseEndPagesList, pdfEraseEndPagesList]
    rw [pdfEraseEndPages_setParent c, pdfEraseEndPagesList_setParent cs]

end

mutual

theorem setParentEndPages_parent_end :
    ∀ c : PdfChapter, ∀ p ∈ pdfAllNodes (setParentEndPages c),
      p.children ≠ [] → p.endPage = getLastDescendantEndPage p
  | .mk i t s e l [] => by
    intro p hp hne
    rw [setParentEndPages, pdfAllNodes] at hp
    rcases List.mem_cons.mp hp with hp | hp
    · subst hp
      exact absurd rfl hne
    · simp [pdfAllNodesList] at hp
  | .mk i t s e l (c :: cs) => by
    intro p hp hne
    rw [setParentEndPages, pdfAllNodes] at hp
    rcases List.mem_cons.mp hp with hp | hp
    · subst hp
      rcases hcs : setParentEndPagesList (c :: cs) with _ | ⟨c', cs'⟩
      · exact absurd hcs (by simp [setParentEndPagesList])
      · simp [hcs, getLastDescendantEndPage]
    · exact setParentEndPagesList_parent_end (c :: cs) p hp hne

theorem setParentEndPagesList_parent_end :
    ∀ l : List PdfChapter, ∀ p ∈ pdfAllNodesList (setParentEndPagesList l),
      p.children ≠ [] → p.endPage = getLastDescendantEndPage p
  | [] => by
    intro p hp
    rw [setParentEndPagesList, pdfAllNodesList] at hp
    simp at hp
  | c :: cs => by
    intro p hp hne
    rw [setParentEndPagesList, pdfAllNodesList] at hp
    rcases List.mem_append.mp hp with hp | hp
    · exact setParentEndPages_parent_end c p hp hne
    · exact setParentEndPagesList_parent_end cs p hp hne

end

/-- C4: after range resolution, every node with children has `endPage` equal
to the `endPage` of its last descendant leaf (obtained by recursively
following the last child), and the resolver changes nothing but `endPage`
fields — in particular every node's `startPage` is exactly as the outline
parser left it. -/
theorem calculateEndPages_parent_end (cs : List PdfChapter) (tp : Int) :
    (∀ p ∈ pdfAllNodesList (calculateEndPages cs tp),
      p.children ≠ [] → p.endPage = getLastDescendantEndPage p) ∧
    pdfEraseEndPagesList (calculateEndPages cs tp) = pdfEraseEndPagesList cs := by
  constructor
  · intro p hp
    exact setParentEndPagesList_parent_end _ p hp
  · unfold calculateEndPages
    rw [pdfEraseEndPagesList_setParent, pdfEraseEndPagesList_assign]

/-- The spec's worked example: `[A(p1, children: [A1(p1), A2(p10)]), B(p20)]`
with 30 pages. -/
def pdfDemo : List PdfChapter :=
  [⟨"chapter-0", "A", 1, 1, 0,
    [⟨"chapter-0-0", "A1", 1, 1, 1, []⟩, ⟨"chapter-0-1", "A2", 10, 10, 1, []⟩]⟩,
   ⟨"chapter-1", "B", 20, 20, 0, []⟩]

/-- The resolved node `A` of the worked example (pages 1-19). -/
def pdfDemoResolvedA : PdfChapter :=
  ⟨"chapter-0", "A", 1, 19, 0,
    [⟨"chapter-0-0", "A1", 1, 9, 1, []⟩, ⟨"chapter-0-1", "A2", 10, 19, 1, []⟩]⟩

/-- Witness for C4 on the spec's worked example: the parent `A` resolves to
pages 1-19 and its `endPage` is its last descendant's. -/
theorem calculateEndPages_parent_end_witness :
    pdfDemoResolvedA ∈ pdfAllNodesList (calculateEndPages pdfDemo 30) ∧
    pdfDemoResolvedA.children ≠ [] ∧
    pdfDemoResolvedA.endPage = getLastDescendantEndPage pdfDemoResolvedA :=
  ⟨by decide, by decide,
   (calculateEndPages_parent_end pdfDemo 30).1 pdfDemoResolvedA (by decide) (by decide)⟩

/-! ## C2 — the resolved leaves partition the page range -/

/-- The per-leaf end-page update performed by `assignLeafEndPages`. -/
def updEnd (m : List (Nat × Int)) (j : Nat) (c : PdfChapter) : PdfChapter :=
  { c with endPage := (List.lookup j m).getD c.endPage }

theorem updEnd_startPage (m : List (Nat × Int)) (j : Nat) (c : PdfChapter) :
    (updEnd m j c).startPage = c.startPage := rfl

theorem updEnd_updEnd (m : List (Nat × Int)) (j : Nat) (c : PdfChapter) :
    updEnd m j (updEnd m j c) = updEnd m j c := by
  unfold updEnd
  cases h : List.lookup j m <;> simp [h]

theorem assignList_cons (m : List (Nat × Int)) (c : PdfChapter) (cs : List PdfChapter) (n : Nat) :
    assignLeafEndPagesList m (c :: cs) n =
      ((assignLeafEndPages m c n).1 :: (assignLeafEndPagesList m cs (assignLeafEndPages m c n).2).1,
       (assignLeafEndPagesList m cs (assignLeafEndPages m c n).2).2) := rfl

theorem assign_parent (m : List (Nat × Int)) (i t : String) (s e : Int) (l : Nat)
    (c : PdfChapter) (cs : List PdfChapter) (n : Nat) :
    assignLeafEndPages m (.mk i t s e l (c :: cs)) n =
      (.mk i t s e l (assignLeafEndPagesList m (c :: cs) n).1,
       (assignLeafEndPagesList m (c :: cs) n).2) := rfl

theorem collectLeaves_parent (i t : String) (s e : Int) (l : Nat)
    (c : PdfChapter) (cs : List PdfChapter) :
    collectLeaves (.mk i t s e l (c :: cs)) = collectLeavesList (c :: cs) := rfl

theorem collectLeaves_ne_nil : ∀ c : PdfChapter, collectLeaves c ≠ []
  | .mk _ _ _ _ _ [] => by simp [collectLeaves]
  | .mk i t s e l (c :: cs) => by
    rw [collectLeaves_parent, collectLeavesList]
    intro h
    exact collectLeaves_ne_nil c (List.append_eq_nil.mp h).1

mutual

theorem collectLeaves_assign (m : List (Nat × Int)) :
    ∀ (c : PdfChapter) (n : Nat),
      collectLeaves (assignLeafEndPages m c n).1 =
        ((collectLeaves c).enumFrom n).map (fun p => updEnd m p.1 p.2) ∧
      (assignLeafEndPages m c n).2 = n + (collectLeaves c).length
  | .mk i t s e l [], n => by
    rw [assignLeafEndPages]
    constructor
    · show collectLeaves (.mk i t s ((List.lookup n m).getD e) l []) = _
      rw [collectLeaves.eq_def]
      simp [List.enumFrom, updEnd, collectLeaves]
    · show n + 1 = n + (collectLeaves (.mk i t s e l [])).length
      simp [collectLeaves]
  | .mk i t s e l (c :: cs), n => by
    have h := collectLeavesList_assign m (c :: cs) n
    rw [assign_parent]
    rcases hr : assignLeafEndPagesList m (c :: cs) n with ⟨rl, rn⟩
    rw [hr] at h
    simp only at h ⊢
    rcases hrl : rl with _ | ⟨x, xs⟩
    · exfalso
      rw [hrl] at h
      have hmap := h.1.symm
      rcases hcl : collectLeavesList (c :: cs) with _ | ⟨x, xs⟩
      · rw [collectLeavesList] at hcl
        exact collectLeaves_ne_nil c (List.append_eq_nil.mp hcl).1
      · rw [hcl] at hmap
        simp [List.enumFrom, collectLeavesList] at hmap
    · constructor
      · rw [← hrl]
        have hcl : collectLeaves (.mk i t s e l rl) = collectLeavesList rl := by
          rw [hrl]; rfl
        rw [hcl, h.1, collectLeaves_parent]
      · rw [h.2, collectLeaves_parent]

theorem collectLeavesList_assign (m : List (Nat × Int)) :
    ∀ (l : List PdfChapter) (n : Nat),
      collectLeavesList (assignLeafEndPagesList m l n).1 =
        ((collectLeavesList l).enumFrom n).map (fun p => updEnd m p.1 p.2) ∧
      (assignLeafEndPagesList m l n).2 = n + (collectLeavesList l).length
  | [], n => by simp [assignLeafEndPagesList, collectLeavesList, List.enumFrom]
  | c :: cs, n => by
    have h1 := collectLeaves_assign m c n
    have h2 := collectLeavesList_assign m cs (assignLeafEndPages m c n).2
    rw [assignList_cons]
    simp only [collectLeavesList]
    rw [h1.2] at h2
    constructor
    · rw [h1.2, h1.1, h2.1, List.enumFrom_append, List.map_append]
    · rw [h1.2, h2.2, List.length_append]
      omega

end

mutual

theorem collectLeaves_setParent :
    ∀ c : PdfChapter, collectLeaves (setParentEndPages c) = collectLeaves c
  | .mk _ _ _ _ _ [] => rfl
  | .mk i t s e l (c :: cs) => by
    rw [setParentEndPages]
    have hlist := collectLeavesList_setParent (c :: cs)
    rcases hsp : setParentEndPagesList (c :: cs) with _ | ⟨c', cs'⟩
    · exact absurd hsp (by simp [setParentEndPagesList])
    · rw [hsp] at hlist
      show collectLeaves (.mk i t s _ l (c' :: cs')) = _
      rw [collectLeaves_parent, hlist, collectLeaves_parent]

theorem collectLeavesList_setParent :
    ∀ l : List PdfChapter, collectLeavesList (setParentEndPagesList l) = collectLeavesList l
  | [] => rfl
  | c :: cs => by
    rw [setParentEndPagesList, collectLeavesList, collectLeavesList]
    rw [collectLeaves_setParent c, collectLeavesList_setParent cs]

end

/-- The combined effect of the end-page assignment on the sorted leaf list:
each leaf's `endPage` becomes the next leaf's `startPage - 1`, the last
leaf's becomes `totalPages` (proof vocabulary for `computeLeafEndPages`
followed by the write-back). -/
def chainAssign : List PdfChapter → Int → List PdfChapter
  | [], _ => []
  | [c], totalPages => [{ c with endPage := totalPages }]
  | c :: d :: rest, totalPages =>
    { c with endPage := d.startPage - 1 } :: chainAssign (d :: rest) totalPages

theorem map_updEnd_computeLeafEndPages :
    ∀ (l : List (Nat × PdfChapter)) (tp : Int), (l.map Prod.fst).Nodup →
      l.map (fun p => updEnd (computeLeafEndPages l tp) p.1 p.2) =
        chainAssign (l.map Prod.snd) tp
  | [], tp, _ => rfl
  | [x], tp, _ => by
    simp [computeLeafEndPages, chainAssign, updEnd, List.lookup]
  | x :: y :: rest, tp, hnd => by
    rw [computeLeafEndPages]
    rw [List.map_cons] at hnd
    obtain ⟨hx, hnd2⟩ := List.nodup_cons.mp hnd
    have htail : ∀ p ∈ y :: rest,
        updEnd ((x.1, y.2.startPage - 1) :: computeLeafEndPages ((y :: rest)) tp) p.1 p.2 =
          updEnd (computeLeafEndPages ((y :: rest)) tp) p.1 p.2 := by
      intro p hp
      have hpx : p.1 ≠ x.1 := by
        intro hcontra
        exact hx (hcontra ▸ List.mem_map_of_mem Prod.fst hp)
      have hbeq : (p.1 == x.1) = false := beq_eq_false_iff_ne.mpr hpx
      unfold updEnd
      rw [List.lookup]
      simp [hbeq]
    rw [List.map_cons, List.map_congr_left htail,
      map_updEnd_computeLeafEndPages (y :: rest) tp hnd2]
    have hhead : updEnd ((x.1, y.2.startPage - 1) :: computeLeafEndPages (y :: rest) tp) x.1 x.2 =
        { x.2 with endPage := y.2.startPage - 1 } := by
      unfold updEnd
      rw [List.lookup]
      simp
    rw [hhead]
    rfl

theorem chainAssign_startPages :
    ∀ (l : List PdfChapter) (tp : Int),
      (chainAssign l tp).map (·.startPage) = l.map (·.startPage)
  | [], _ => rfl
  | [c], tp => rfl
  | c :: d :: rest, tp => by
    rw [chainAssign, List.map_cons, chainAssign_startPages (d :: rest) tp]
    rfl

theorem chainAssign_chain :
    ∀ (l : List PdfChapter) (tp : Int),
      List.Chain' (fun a b => a.endPage + 1 = b.startPage) (chainAssign l tp)
  | [], _ => List.chain'_nil
  | [c], tp => List.chain'_singleton _
  | c :: d :: rest, tp => by
    rw [chainAssign, List.chain'_cons']
    refine ⟨?_, chainAssign_chain (d :: rest) tp⟩
    intro y hy
    have hstart : y.startPage = d.startPage := by
      rcases rest with _ | ⟨e, rest'⟩
      · rw [chainAssign] at hy
        simp at hy
        exact hy ▸ rfl
      · rw [chainAssign] at hy
        simp at hy
        exact hy ▸ rfl
    simp only [hstart]
    omega

theorem chainAssign_mem_start (l : List PdfChapter) (tp : Int) :
    ∀ u ∈ chainAssign l tp, u.startPage ∈ l.map (·.startPage) := by
  intro u hu
  rw [← chainAssign_startPages l tp]
  exact List.mem_map_of_mem _ hu

theorem chainAssign_pairwise_disjoint :
    ∀ (l : List PdfChapter) (tp : Int), l.Sorted leStartC →
      List.Pairwise (fun a b => ∀ x : Int,
        ¬(a.startPage ≤ x ∧ x ≤ a.endPage ∧ b.startPage ≤ x ∧ x ≤ b.endPage))
        (chainAssign l tp)
  | [], _, _ => List.Pairwise.nil
  | [c], tp, _ => by simp [chainAssign]
  | c :: d :: rest, tp, hs => by
    rw [chainAssign, List.pairwise_cons]
    have hs' : (d :: rest).Sorted leStartC := (List.sorted_cons.mp hs).2
    refine ⟨?_, chainAssign_pairwise_disjoint (d :: rest) tp hs'⟩
    intro u hu x hx
    have hustart : d.startPage ≤ u.startPage := by
      have hmem := chainAssign_mem_start (d :: rest) tp u hu
      rcases List.mem_map.mp hmem with ⟨v, hv, hveq⟩
      rcases List.mem_cons.mp hv with hv | hv
      · rw [← hveq, hv]
      · have := (List.sorted_cons.mp hs').1 v hv
        rw [← hveq]
        exact this
    rcases hx with ⟨_, hx2, hx3, _⟩
    simp only at hx2
    omega

theorem chainAssign_union :
    ∀ (c : PdfChapter) (rest : List PdfChapter) (tp : Int),
      (c :: rest).Sorted leStartC →
      (∀ u ∈ c :: rest, u.startPage ≤ tp) →
      ∀ x : Int,
        (∃ u ∈ chainAssign (c :: rest) tp, u.startPage ≤ x ∧ x ≤ u.endPage) ↔
          c.startPage ≤ x ∧ x ≤ tp
  | c, [], tp, _, hall, x => by
    simp [chainAssign]
  | c, d :: rest, tp, hs, hall, x => by
    rw [chainAssign]
    have hs' : (d :: rest).Sorted leStartC := (List.sorted_cons.mp hs).2
    have hall' : ∀ u ∈ d :: rest, u.startPage ≤ tp := fun u hu =>
      hall u (List.mem_cons_of_mem c hu)
    have ih := chainAssign_union d rest tp hs' hall' x
    have hcd : c.startPage ≤ d.startPage :=
      (List.sorted_cons.mp hs).1 d (List.mem_cons_self d rest)
    have hdtp : d.startPage ≤ tp := hall d (List.mem_cons_of_mem c (List.mem_cons_self d rest))
    constructor
    · rintro ⟨u, hu, hu1, hu2⟩
      rcases List.mem_cons.mp hu with hu | hu
      · subst hu
        simp only at hu1 hu2
        omega
      · have := ih.mp ⟨u, hu, hu1, hu2⟩
        omega
    · rintro ⟨hx1, hx2⟩
      by_cases hcase : x ≤ d.startPage - 1
      · exact ⟨_, List.mem_cons_self _ _, by simp only; omega⟩
      · rcases ih.mpr ⟨by omega, hx2⟩ with ⟨u, hu, hu1, hu2⟩
        exact ⟨u, List.mem_cons_of_mem _ hu, hu1, hu2⟩

theorem resolvedLeaves_eq_chainAssign (cs : List PdfChapter) (tp : Int) :
    List.insertionSort leStartC (collectLeavesList (calculateEndPages cs tp)) =
      chainAssign
        ((List.insertionSort leStart ((collectLeavesList cs).enum)).map Prod.snd) tp := by
  have henum : (collectLeavesList cs).enum = List.enumFrom 0 (collectLeavesList cs) := rfl
  have hnodup :
      ((List.insertionSort leStart ((collectLeavesList cs).enum)).map Prod.fst).Nodup := by
    have hperm := List.perm_insertionSort leStart ((collectLeavesList cs).enum)
    have := (hperm.map Prod.fst).nodup_iff.mpr
    apply this
    rw [henum, List.enumFrom_map_fst]
    exact List.nodup_range' 0 _
  unfold calculateEndPages
  rw [collectLeavesList_setParent,
    (collectLeavesList_assign (computeLeafEndPages
      (List.insertionSort leStart ((collectLeavesList cs).enum)) tp) cs 0).1]
  rw [← henum]
  rw [← List.map_insertionSort leStart leStartC
    (fun p => updEnd (computeLeafEndPages
      (List.insertionSort leStart ((collectLeavesList cs).enum)) tp) p.1 p.2)
    ((collectLeavesList cs).enum)
    (fun a _ b _ => by
      unfold leStart leStartC
      rw [updEnd_startPage, updEnd_startPage])]
  exact map_updEnd_computeLeafEndPages _ tp hnodup

/-- C2 (amended): for every PDF chapter tree with at least one leaf, after
range resolution the leaves sorted by `startPage` are — unconditionally —
contiguous (each leaf's `endPage + 1` is the next leaf's `startPage`) and
pairwise non-overlapping; and provided additionally that every leaf's
`startPage` lies in `[1, totalPages]` and some leaf starts at page 1, the
union of the leaf ranges is exactly `[1, totalPages]`.  (Without the added
provisos the union clause is false: the first sorted leaf's range starts at
its own `startPage`, not at page 1, and a leaf starting past `totalPages`
truncates the union — see the counterexample.) -/
theorem resolvedLeaves_partition (cs : List PdfChapter) (tp : Int)
    (hne : collectLeavesList cs ≠ []) :
    List.Chain' (fun a b => a.endPage + 1 = b.startPage)
      (List.insertionSort leStartC (collectLeavesList (calculateEndPages cs tp))) ∧
    List.Pairwise (fun a b => ∀ x : Int,
      ¬(a.startPage ≤ x ∧ x ≤ a.endPage ∧ b.startPage ≤ x ∧ x ≤ b.endPage))
      (List.insertionSort leStartC (collectLeavesList (calculateEndPages cs tp))) ∧
    ((∀ c ∈ collectLeavesList cs, 1 ≤ c.startPage) →
      (∃ c ∈ collectLeavesList cs, c.startPage = 1) →
      (∀ c ∈ collectLeavesList cs, c.startPage ≤ tp) →
      ∀ x : Int,
        (∃ u ∈ List.insertionSort leStartC (collectLeavesList (calculateEndPages cs tp)),
          u.startPage ≤ x ∧ x ≤ u.endPage) ↔ 1 ≤ x ∧ x ≤ tp) := by
  rw [resolvedLeaves_eq_chainAssign]
  have hperm :
      ((List.insertionSort leStart ((collectLeavesList cs).enum)).map Prod.snd).Perm
        (collectLeavesList cs) := by
    have hp := (List.perm_insertionSort leStart ((collectLeavesList cs).enum)).map Prod.snd
    rwa [show (collectLeavesList cs).enum = List.enumFrom 0 (collectLeavesList cs) from rfl,
      List.enumFrom_map_snd] at hp
  have hsorted :
      ((List.insertionSort leStart ((collectLeavesList cs).enum)).map Prod.snd).Sorted
        leStartC :=
    List.Pairwise.map Prod.snd (fun _ _ h => h)
      (List.sorted_insertionSort leStart ((collectLeavesList cs).enum))
  refine ⟨chainAssign_chain _ tp, chainAssign_pairwise_disjoint _ tp hsorted, ?_⟩
  intro hpos hone hle
  rcases hL : (List.insertionSort leStart ((collectLeavesList cs).enum)).map Prod.snd
    with _ | ⟨c, rest⟩
  · rw [hL] at hperm
    exact absurd hperm.symm.eq_nil hne
  · rw [hL] at hperm hsorted
    have hcs1 : c.startPage = 1 := by
      rcases hone with ⟨u, hu, hu1⟩
      have humem : u ∈ c :: rest := hperm.mem_iff.mpr hu
      have hc1 : 1 ≤ c.startPage := hpos c (hperm.subset (List.mem_cons_self c rest))
      rcases List.mem_cons.mp humem with hu' | hu'
      · rw [← hu', hu1]
      · have := (List.sorted_cons.mp hsorted).1 u hu'
        unfold leStartC at this
        omega
    have hall : ∀ u ∈ c :: rest, u.startPage ≤ tp := fun u hu =>
      hle u (hperm.subset hu)
    intro x
    rw [chainAssign_union c rest tp hsorted hall x, hcs1]

/-- The one-leaf tree whose single chapter starts at page 2. -/
def c2Demo : List PdfChapter := [⟨"chapter-0", "A", 2, 2, 0, []⟩]

/-- C2 (counterexample to the claim as stated): on a one-leaf tree starting
at page 2 with `totalPages = 2`, page 1 lies in `[1, totalPages]` but in no
resolved leaf range, so the union of the leaf ranges is not `[1, totalPages]`. -/
theorem resolvedLeaves_union_counterexample :
    (¬ ∃ u ∈ List.insertionSort leStartC (collectLeavesList (calculateEndPages c2Demo 2)),
      u.startPage ≤ 1 ∧ (1 : Int) ≤ u.endPage) ∧
    ((1 : Int) ≥ 1 ∧ (1 : Int) ≤ 2) := by
  constructor
  · decide
  · decide

/-- Witness for C2 (amended) on the spec's worked example. -/
theorem resolvedLeaves_partition_witness :
    (collectLeavesList pdfDemo ≠ []) ∧
    ∀ x : Int,
      (∃ u ∈ List.insertionSort leStartC (collectLeavesList (calculateEndPages pdfDemo 30)),
        u.startPage ≤ x ∧ x ≤ u.endPage) ↔ 1 ≤ x ∧ x ≤ 30 :=
  ⟨by decide,
   (resolvedLeaves_partition pdfDemo 30 (by decide)).2.2 (by decide) (by decide) (by decide)⟩

/-! ## C9 — idempotence of the range resolver -/

theorem enumFrom_enumFrom {α : Type} :
    ∀ (l : List α) (n : Nat),
      List.enumFrom n (List.enumFrom n l) = (List.enumFrom n l).map (fun p => (p.1, p))
  | [], _ => rfl
  | a :: l, n => by
    simp only [List.enumFrom, List.map_cons]
    rw [enumFrom_enumFrom l (n + 1)]

theorem computeLeafEndPages_map (h : Nat × PdfChapter → Nat × PdfChapter)
    (hh : ∀ p, (h p).1 = p.1 ∧ (h p).2.startPage = p.2.startPage) :
    ∀ (l : List (Nat × PdfChapter)) (tp : Int),
      computeLeafEndPages (l.map h) tp = computeLeafEndPages l tp
  | [], _ => rfl
  | [x], tp => by
    rw [List.map_cons, List.map_nil, computeLeafEndPages, computeLeafEndPages, (hh x).1]
  | x :: y :: rest, tp => by
    rw [List.map_cons, List.map_cons, computeLeafEndPages, computeLeafEndPages]
    rw [(hh x).1, (hh y).2]
    congr 1
    simp only [Prod.mk.eta]
    rw [← List.map_cons]
    exact computeLeafEndPages_map h hh (y :: rest) tp

mutual

theorem assignLeafEndPages_self (m : List (Nat × Int)) :
    ∀ (c : PdfChapter) (n : Nat),
      (∀ p ∈ (collectLeaves c).enumFrom n, updEnd m p.1 p.2 = p.2) →
      assignLeafEndPages m c n = (c, n + (collectLeaves c).length)
  | .mk i t s e l [], n => by
    intro hfix
    have h := hfix (n, .mk i t s e l []) (by simp [collectLeaves, List.enumFrom])
    have he : (List.lookup n m).getD e = e := congrArg PdfChapter.endPage h
    rw [assignLeafEndPages, he]
    simp [collectLeaves]
  | .mk i t s e l (c :: cs), n => by
    intro hfix
    rw [assign_parent]
    rw [collectLeaves_parent] at hfix
    rw [assignLeafEndPagesList_self m (c :: cs) n hfix]
    rw [collectLeaves_parent]

theorem assignLeafEndPagesList_self (m : List (Nat × Int)) :
    ∀ (l : List PdfChapter) (n : Nat),
      (∀ p ∈ (collectLeavesList l).enumFrom n, updEnd m p.1 p.2 = p.2) →
      assignLeafEndPagesList m l n = (l, n + (collectLeavesList l).length)
  | [], n => by
    intro _
    simp [assignLeafEndPagesList, collectLeavesList]
  | c :: cs, n => by
    intro hfix
    rw [collectLeavesList] at hfix
    have hfix1 : ∀ p ∈ (collectLeaves c).enumFrom n, updEnd m p.1 p.2 = p.2 := by
      intro p hp
      exact hfix p (by rw [List.enumFrom_append]; exact List.mem_append_left _ hp)
    have hfix2 : ∀ p ∈ (collectLeavesList cs).enumFrom (n + (collectLeaves c).length),
        updEnd m p.1 p.2 = p.2 := by
      intro p hp
      exact hfix p (by rw [List.enumFrom_append]; exact List.mem_append_right _ hp)
    rw [assignList_cons, assignLeafEndPages_self m c n hfix1]
    simp only
    rw [assignLeafEndPagesList_self m cs (n + (collectLeaves c).length) hfix2]
    rw [collectLeavesList, List.length_append]
    simp [Nat.add_assoc]

end

mutual

theorem setParentEndPages_idem :
    ∀ c : PdfChapter, setParentEndPages (setParentEndPages c) = setParentEndPages c
  | .mk _ _ _ _ _ [] => rfl
  | .mk i t s e l (c :: cs) => by
    rw [setParentEndPages]
    have hlist := setParentEndPagesList_idem (c :: cs)
    rcases hsp : setParentEndPagesList (c :: cs) with _ | ⟨c', cs'⟩
    · exact absurd hsp (by simp [setParentEndPagesList])
    · rw [hsp] at hlist
      show setParentEndPages (.mk i t s (getLastDescendantEndPageList (c' :: cs')) l (c' :: cs'))
        = _
      rw [setParentEndPages, hlist]

theorem setParentEndPagesList_idem :
    ∀ l : List PdfChapter,
      setParentEndPagesList (setParentEndPagesList l) = setParentEndPagesList l
  | [] => rfl
  | c :: cs => by
    show setParentEndPagesList (setParentEndPages c :: setParentEndPagesList cs) = _
    rw [setParentEndPagesList]
    rw [setParentEndPages_idem c, setParentEndPagesList_idem cs]
    rfl

end

/-- The end-page table the resolver computes for a tree (proof vocabulary;
definitionally the table used inside `calculateEndPages`). -/
def resolveTable (cs : List PdfChapter) (tp : Int) : List (Nat × Int) :=
  computeLeafEndPages (List.insertionSort leStart ((collectLeavesList cs).enum)) tp

/-- C9: the range resolver is idempotent — resolving an already-resolved
tree (with the same `totalPages`) changes nothing. -/
theorem calculateEndPages_idem (cs : List PdfChapter) (tp : Int) :
    calculateEndPages (calculateEndPages cs tp) tp = calculateEndPages cs tp := by
  have hl2 : collectLeavesList (calculateEndPages cs tp) =
      ((collectLeavesList cs).enum).map (fun p => updEnd (resolveTable cs tp) p.1 p.2) := by
    show collectLeavesList (setParentEndPagesList
        (assignLeafEndPagesList (resolveTable cs tp) cs 0).1) = _
    rw [collectLeavesList_setParent, (collectLeavesList_assign _ cs 0).1]
    rfl
  have henum2 : (collectLeavesList (calculateEndPages cs tp)).enum =
      ((collectLeavesList cs).enum).map
        (fun p => (p.1, updEnd (resolveTable cs tp) p.1 p.2)) := by
    rw [hl2]
    show List.enumFrom 0 ((List.enumFrom 0 (collectLeavesList cs)).map _) = _
    rw [List.enumFrom_map, enumFrom_enumFrom, List.map_map]
    rfl
  have hsort2 :
      List.insertionSort leStart ((collectLeavesList (calculateEndPages cs tp)).enum) =
        (List.insertionSort leStart ((collectLeavesList cs).enum)).map
          (fun p => (p.1, updEnd (resolveTable cs tp) p.1 p.2)) := by
    rw [henum2]
    exact (List.map_insertionSort leStart leStart
      (fun p => (p.1, updEnd (resolveTable cs tp) p.1 p.2)) ((collectLeavesList cs).enum)
      (fun a _ b _ => Iff.rfl)).symm
  have hm2 : resolveTable (calculateEndPages cs tp) tp = resolveTable cs tp := by
    unfold resolveTable
    rw [hsort2]
    exact computeLeafEndPages_map (fun p => (p.1, updEnd (resolveTable cs tp) p.1 p.2))
      (fun p => ⟨rfl, rfl⟩) (List.insertionSort leStart ((collectLeavesList cs).enum)) tp
  have hassign : assignLeafEndPagesList (resolveTable cs tp) (calculateEndPages cs tp) 0 =
      (calculateEndPages cs tp, 0 + (collectLeavesList (calculateEndPages cs tp)).length) := by
    apply assignLeafEndPagesList_self
    intro p hp
    rw [show (collectLeavesList (calculateEndPages cs tp)).enumFrom 0 =
        (collectLeavesList (calculateEndPages cs tp)).enum from rfl, henum2] at hp
    rcases List.mem_map.mp hp with ⟨q, _, hq⟩
    rw [← hq]
    exact updEnd_updEnd _ q.1 q.2
  show setParentEndPagesList
      (assignLeafEndPagesList (resolveTable (calculateEndPages cs tp) tp)
        (calculateEndPages cs tp) 0).1 = calculateEndPages cs tp
  rw [hm2, hassign]
  show setParentEndPagesList (setParentEndPagesList
      (assignLeafEndPagesList (resolveTable cs tp) cs 0).1) = calculateEndPages cs tp
  rw [setParentEndPagesList_idem]
  rfl

/-! ## C10 — a selected parent with no selected descendant -/

/- All nodes of a planner chapter tree, in depth-first pre-order. -/
mutual

def chapterNodes : Chapter → List Chapter
  | .mk i t s e co l children => .mk i t s e co l children :: chapterNodesList children

def chapterNodesList : List Chapter → List Chapter
  | [] => []
  | c :: cs => chapterNodes c ++ chapterNodesList cs

end

mutual

theorem getAllChapterIds_eq_nodes :
    ∀ l : List Chapter, getAllChapterIds l = (chapterNodesList l).map (·.id)
  | [] => rfl
  | c :: cs => by
    rw [getAllChapterIds, chapterNodesList, List.map_append,
      getAllChapterIds_eq_nodes cs, chapterIdsOf_eq_nodes c]

theorem chapterIdsOf_eq_nodes :
    ∀ c : Chapter, chapterIdsOf c = (chapterNodes c).map (·.id)
  | .mk i t s e co l children => by
    rw [chapterIdsOf, chapterNodes, List.map_cons, getAllChapterIds_eq_nodes children]

end

theorem chapterNodes_cons_self (c : Chapter) : c ∈ chapterNodes c := by
  rcases c with ⟨i, t, s, e, co, l, children⟩
  rw [chapterNodes]
  exact List.mem_cons_self _ _

mutual

theorem descendantsOfList_subset_nodes :
    ∀ l : List Chapter, ∀ d ∈ descendantsOfList l, d ∈ chapterNodesList l
  | [], d, hd => by simp [descendantsOfList] at hd
  | c :: cs, d, hd => by
    rw [descendantsOfList] at hd
    rw [chapterNodesList]
    rcases List.mem_cons.mp hd with hd | hd
    · subst hd
      exact List.mem_append_left _ (chapterNodes_cons_self _)
    · rcases List.mem_append.mp hd with hd | hd
      · exact List.mem_append_left _ (getAllDescendants_subset_nodes c d hd)
      · exact List.mem_append_right _ (descendantsOfList_subset_nodes cs d hd)

theorem getAllDescendants_subset_nodes :
    ∀ c : Chapter, ∀ d ∈ getAllDescendants c, d ∈ chapterNodes c
  | .mk i t s e co l children, d, hd => by
    rw [getAllDescendants] at hd
    rw [chapterNodes]
    exact List.mem_cons_of_mem _ (descendantsOfList_subset_nodes children d hd)

end

mutual

theorem chapterNodes_trans :
    ∀ c : Chapter, ∀ x ∈ chapterNodes c, ∀ y ∈ chapterNodes x, y ∈ chapterNodes c
  | .mk i t s e co l children, x, hx, y, hy => by
    rw [chapterNodes] at hx ⊢
    rcases List.mem_cons.mp hx with hx | hx
    · subst hx
      rw [chapterNodes] at hy
      exact hy
    · exact List.mem_cons_of_mem _ (chapterNodesList_trans children x hx y hy)

theorem chapterNodesList_trans :
    ∀ l : List Chapter, ∀ x ∈ chapterNodesList l, ∀ y ∈ chapterNodes x, y ∈ chapterNodesList l
  | [], x, hx, y, hy => by simp [chapterNodesList] at hx
  | c :: cs, x, hx, y, hy => by
    rw [chapterNodesList] at hx ⊢
    rcases List.mem_append.mp hx with hx | hx
    · exact List.mem_append_left _ (chapterNodes_trans c x hx y hy)
    · exact List.mem_append_right _ (chapterNodesList_trans cs x hx y hy)

end

theorem mem_sortForFileType (ft : FileType) (l : List Chapter) (u : Chapter) :
    u ∈ sortForFileType ft l ↔ u ∈ l := by
  cases ft
  · exact List.mem_insertionSort leStartKey
  · exact Iff.rfl

theorem string_append_cancel_right {a b s : String} (h : a ++ s = b ++ s) : a = b := by
  apply String.ext
  have hd : a.data ++ s.data = b.data ++ s.data := by
    rw [← String.data_append, ← String.data_append, h]
  exact List.append_cancel_right hd

theorem processChapter_tasks_shape (ft : FileType) (sel mrg : List String) (c : Chapter)
    (pts : List String) (st : PlanState) :
    ∀ t ∈ (processChapter ft sel mrg c pts st).tasks,
      t ∈ st.tasks ∨ (t.chapterId = c.id ∧
        ∀ u ∈ t.chapters, u.id = c.id ++ "_intro" ∨ u = c ∨ u ∈ getAllDescendants c) := by
  intro t ht
  unfold processChapter at ht
  by_cases h1 : st.processed.contains c.id = true
  · rw [if_pos h1] at ht
    exact Or.inl ht
  · rw [if_neg h1] at ht
    by_cases h2 : (mrg.contains c.id && !c.children.isEmpty) = true
    · rw [if_pos h2] at ht
      by_cases h3 : (!((getAllDescendants c).filter fun ch => sel.contains ch.id).isEmpty) = true
      · rw [if_pos h3] at ht
        simp only at ht
        rcases List.mem_append.mp ht with ht | ht
        · exact Or.inl ht
        · rcases List.mem_singleton.mp ht with rfl
          refine Or.inr ⟨rfl, ?_⟩
          intro u hu
          rcases List.mem_append.mp hu with hu | hu
          · left
            split at hu
            · split at hu
              · rcases List.mem_singleton.mp hu with rfl
                rfl
              · simp at hu
            · split at hu
              · rcases List.mem_singleton.mp hu with rfl
                rfl
              · simp at hu
          · right; right
            exact List.mem_of_mem_filter ((mem_sortForFileType ft _ u).mp hu)
      · rw [if_neg h3] at ht
        exact Or.inl ht
    · rw [if_neg h2] at ht
      by_cases h4 : sel.contains c.id = true
      · rw [if_pos h4] at ht
        by_cases h5 : (!c.children.isEmpty) = true
        · rw [if_pos h5] at ht
          by_cases h6 : (if (ft == FileType.pdf && truthyNum c.startPage && truthyNum c.endPage
                && !((getAllDescendants c).filter fun ch => sel.contains ch.id).isEmpty) = true
              then ltInf (c.startPage.getD 0)
                (firstStartOf ((getAllDescendants c).filter fun ch => sel.contains ch.id))
              else ft == FileType.epub && truthyStr c.content) = true
          · rw [if_pos h6] at ht
            simp only at ht
            rcases List.mem_append.mp ht with ht | ht
            · exact Or.inl ht
            · split at ht
              · rcases List.mem_singleton.mp ht with rfl
                refine Or.inr ⟨rfl, ?_⟩
                intro u hu
                rcases List.mem_singleton.mp hu with rfl
                exact Or.inl rfl
              · split at ht
                · rcases List.mem_singleton.mp ht with rfl
                  refine Or.inr ⟨rfl, ?_⟩
                  intro u hu
                  rcases List.mem_singleton.mp hu with rfl
                  exact Or.inl rfl
                · simp at ht
          · rw [if_neg h6] at ht
            exact Or.inl ht
        · rw [if_neg h5] at ht
          simp only at ht
          rcases List.mem_append.mp ht with ht | ht
          · exact Or.inl ht
          · rcases List.mem_singleton.mp ht with rfl
            refine Or.inr ⟨rfl, ?_⟩
            intro u hu
            rcases List.mem_singleton.mp hu with rfl
            exact Or.inr (Or.inl rfl)
      · rw [if_neg h4] at ht
        exact Or.inl ht

theorem processChapter_fixed (sel mrg : List String) (X : Chapter) (pts : List String)
    (st : PlanState) (hchild : X.children ≠ [])
    (hfilter : (getAllDescendants X).filter (fun ch => sel.contains ch.id) = []) :
    processChapter .pdf sel mrg X pts st = st := by
  unfold processChapter
  by_cases h1 : st.processed.contains X.id = true
  · rw [if_pos h1]
  · rw [if_neg h1]
    by_cases h2 : (mrg.contains X.id && !X.children.isEmpty) = true
    · rw [if_pos h2]
      simp only [hfilter]
      simp
    · rw [if_neg h2]
      by_cases h4 : sel.contains X.id = true
      · rw [if_pos h4]
        have h5 : (!X.children.isEmpty) = true := by
          rcases hc : X.children with _ | _
          · exact absurd hc hchild
          · rfl
        rw [if_pos h5]
        simp only [hfilter]
        simp [truthyStr]
      · rw [if_neg h4]

theorem mem_descendantsOfList_of_mem :
    ∀ (l : List Chapter) (c : Chapter), c ∈ l → c ∈ descendantsOfList l
  | d :: ds, c, hc => by
    rw [descendantsOfList]
    rcases List.mem_cons.mp hc with hc | hc
    · exact hc ▸ List.mem_cons_self _ _
    · exact List.mem_cons_of_mem _
        (List.mem_append_right _ (mem_descendantsOfList_of_mem ds c hc))

theorem mem_getAllDescendants_of_mem_children (X c : Chapter) (hc : c ∈ X.children) :
    c ∈ getAllDescendants X := by
  rcases X with ⟨i, t, s, e, co, l, children⟩
  rw [getAllDescendants]
  exact mem_descendantsOfList_of_mem children c hc

mutual

theorem traverseChapter_no_X (sel mrg : List String) (X : Chapter)
    (hchild : X.children ≠ [])
    (hfilter : (getAllDescendants X).filter (fun ch => sel.contains ch.id) = []) :
    ∀ (c : Chapter) (pts : List String) (st : PlanState),
      (∀ nd ∈ chapterNodes c, nd = X ∨ (nd.id ≠ X.id ∧ nd.id ≠ X.id ++ "_intro" ∧
        ∀ d ∈ getAllDescendants nd, d.id ≠ X.id ++ "_intro")) →
      (∀ t ∈ st.tasks, t.chapterId ≠ X.id ∧ ∀ u ∈ t.chapters, u.id ≠ X.id ++ "_intro") →
      ∀ t ∈ (traverseChapter .pdf sel mrg c pts st).tasks,
        t.chapterId ≠ X.id ∧ ∀ u ∈ t.chapters, u.id ≠ X.id ++ "_intro"
  | .mk i ti s e co l children, pts, st => by
    intro hok hst
    have hst' : ∀ t ∈ (processChapter .pdf sel mrg (.mk i ti s e co l children) pts st).tasks,
        t.chapterId ≠ X.id ∧ ∀ u ∈ t.chapters, u.id ≠ X.id ++ "_intro" := by
      rcases hok (.mk i ti s e co l children) (chapterNodes_cons_self _) with hX' | ⟨hne, hni, hnd⟩
      · rw [hX', processChapter_fixed sel mrg X pts st hchild hfilter]
        exact hst
      · intro t ht
        rcases processChapter_tasks_shape .pdf sel mrg (.mk i ti s e co l children) pts st t ht
          with ht' | ⟨hcid, hunits⟩
        · exact hst t ht'
        · refine ⟨by rw [hcid]; exact hne, ?_⟩
          intro u hu
          rcases hunits u hu with hu' | hu' | hu'
          · rw [hu']
            intro hcontra
            exact hne (string_append_cancel_right hcontra)
          · rw [hu']
            exact hni
          · exact hnd u hu'
    by_cases hemp : children.isEmpty
    · have hred : traverseChapter .pdf sel mrg (.mk i ti s e co l children) pts st =
          processChapter .pdf sel mrg (.mk i ti s e co l children) pts st := by
        show (if children.isEmpty then
            processChapter .pdf sel mrg (.mk i ti s e co l children) pts st
          else traverseChapters .pdf sel mrg children (pts ++ [ti])
            (processChapter .pdf sel mrg (.mk i ti s e co l children) pts st)) = _
        rw [if_pos hemp]
      rw [hred]
      exact hst'
    · have hred : traverseChapter .pdf sel mrg (.mk i ti s e co l children) pts st =
          traverseChapters .pdf sel mrg children (pts ++ [ti])
            (processChapter .pdf sel mrg (.mk i ti s e co l children) pts st) := by
        show (if children.isEmpty then
            processChapter .pdf sel mrg (.mk i ti s e co l children) pts st
          else traverseChapters .pdf sel mrg children (pts ++ [ti])
            (processChapter .pdf sel mrg (.mk i ti s e co l children) pts st)) = _
        rw [if_neg hemp]
      rw [hred]
      refine traverseChapters_no_X sel mrg X hchild hfilter children (pts ++ [ti]) _ ?_ hst'
      intro nd hnd
      refine hok nd ?_
      show nd ∈ chapterNodes (.mk i ti s e co l children)
      rw [chapterNodes]
      exact List.mem_cons_of_mem _ hnd

theorem traverseChapters_no_X (sel mrg : List String) (X : Chapter)
    (hchild : X.children ≠ [])
    (hfilter : (getAllDescendants X).filter (fun ch => sel.contains ch.id) = []) :
    ∀ (l : List Chapter) (pts : List String) (st : PlanState),
      (∀ nd ∈ chapterNodesList l, nd = X ∨ (nd.id ≠ X.id ∧ nd.id ≠ X.id ++ "_intro" ∧
        ∀ d ∈ getAllDescendants nd, d.id ≠ X.id ++ "_intro")) →
      (∀ t ∈ st.tasks, t.chapterId ≠ X.id ∧ ∀ u ∈ t.chapters, u.id ≠ X.id ++ "_intro") →
      ∀ t ∈ (traverseChapters .pdf sel mrg l pts st).tasks,
        t.chapterId ≠ X.id ∧ ∀ u ∈ t.chapters, u.id ≠ X.id ++ "_intro"
  | [], pts, st => fun _ hst => hst
  | c :: cs, pts, st => by
    intro hok hst
    rw [traverseChapters]
    refine traverseChapters_no_X sel mrg X hchild hfilter cs pts _ ?_ ?_
    · intro nd hnd
      refine hok nd ?_
      rw [chapterNodesList]
      exact List.mem_append_right _ hnd
    · refine traverseChapter_no_X sel mrg X hchild hfilter c pts st ?_ hst
      intro nd hnd
      refine hok nd ?_
      rw [chapterNodesList]
      exact List.mem_append_left _ hnd

end

/-- C10 (amended): on a PDF tree, a selected node `X` with children but no
selected descendant never produces a task of its own: the planner's output
contains no task whose `chapterId` is `X.id` and no content unit whose id is
`X.id ++ "_intro"`, whether or not `X` is merge-flagged.  (The tree's node
ids and the selection are assumed duplicate-free, the selection drawn from
the tree, and no node id collides with `X.id ++ "_intro"` — all true of
parser-produced trees and UI-produced selections.)  `X`'s *pages* can still
be exported: a merge-flagged ancestor gathers `X` itself as a content unit
of the ancestor's task — see the counterexample. -/
theorem planExport_no_own_task (chapters selectedChapters : List Chapter)
    (mode : MergeMode) (flags : List String) (X : Chapter)
    (hX : X ∈ chapterNodesList chapters)
    (hchild : X.children ≠ [])
    (hnodesc : ∀ d ∈ getAllDescendants X, d.id ∉ selectedChapters.map (·.id))
    (hnodupAll : (getAllChapterIds chapters).Nodup)
    (hseldup : (selectedChapters.map (·.id)).Nodup)
    (hselsub : ∀ i ∈ selectedChapters.map (·.id), i ∈ getAllChapterIds chapters)
    (hnointro : ∀ nd ∈ chapterNodesList chapters, nd.id ≠ X.id ++ "_intro") :
    ∀ t ∈ planExport .pdf chapters selectedChapters mode flags,
      t.chapterId ≠ X.id ∧ ∀ u ∈ t.chapters, u.id ≠ X.id ++ "_intro" := by
  have hfilter : (getAllDescendants X).filter
      (fun ch => (selectedChapters.map (·.id)).contains ch.id) = [] := by
    rw [List.filter_eq_nil_iff]
    intro d hd
    simpa using hnodesc d hd
  have hok : ∀ nd ∈ chapterNodesList chapters,
      nd = X ∨ (nd.id ≠ X.id ∧ nd.id ≠ X.id ++ "_intro" ∧
        ∀ d ∈ getAllDescendants nd, d.id ≠ X.id ++ "_intro") := by
    intro nd hnd
    by_cases hid : nd.id = X.id
    · left
      rw [getAllChapterIds_eq_nodes] at hnodupAll
      exact List.inj_on_of_nodup_map hnodupAll hnd hX hid
    · right
      refine ⟨hid, hnointro nd hnd, ?_⟩
      intro d hd
      exact hnointro d
        (chapterNodesList_trans chapters nd hnd d (getAllDescendants_subset_nodes nd d hd))
  -- The selection cannot be the full node set: `X`'s first child is a node
  -- whose id is never selected.
  rcases hc : X.children with _ | ⟨c₀, restc⟩
  · exact absurd hc hchild
  have hc₀desc : c₀ ∈ getAllDescendants X :=
    mem_getAllDescendants_of_mem_children X c₀ (by rw [hc]; exact List.mem_cons_self _ _)
  have hc₀node : c₀ ∈ chapterNodesList chapters :=
    chapterNodesList_trans chapters X hX c₀ (getAllDescendants_subset_nodes X c₀ hc₀desc)
  have hc₀id : c₀.id ∈ getAllChapterIds chapters := by
    rw [getAllChapterIds_eq_nodes]
    exact List.mem_map_of_mem _ hc₀node
  have hc₀notsel : c₀.id ∉ selectedChapters.map (·.id) := hnodesc c₀ hc₀desc
  have hlen : (selectedChapters.map (·.id)).length < (getAllChapterIds chapters).length := by
    have hsub2 : selectedChapters.map (·.id) ⊆ (getAllChapterIds chapters).erase c₀.id := by
      intro x hx
      have hxne : x ≠ c₀.id := fun he => hc₀notsel (he ▸ hx)
      exact (List.mem_erase_of_ne hxne).mpr (hselsub x hx)
    have hle := (List.subperm_of_subset hseldup hsub2).length_le
    rw [List.length_erase_of_mem hc₀id] at hle
    have hpos : 0 < (getAllChapterIds chapters).length := List.length_pos.mpr
      (fun hnil => by rw [hnil] at hc₀id; simp at hc₀id)
    omega
  have hlen' : selectedChapters.length ≠ (getAllChapterIds chapters).length := by
    rw [← List.length_map selectedChapters (·.id)]
    omega
  intro t ht
  by_cases hemp : selectedChapters.isEmpty = true
  · rw [planExport, if_pos hemp] at ht
    simp at ht
  · have hfull : (selectedChapters.length == (getAllChapterIds chapters).length) = false :=
      beq_eq_false_iff_ne.mpr hlen'
    have hplan : planExport .pdf chapters selectedChapters mode flags =
        (traverseChapters .pdf (selectedChapters.map (·.id)) flags chapters []
          ⟨[], []⟩).tasks := by
      show (if selectedChapters.isEmpty then ([] : List ExportTask)
        else if ((selectedChapters.length == (getAllChapterIds chapters).length)
            && (mode == MergeMode.merge)) = true then
          [⟨"合并章节", sortForFileType .pdf selectedChapters, [], "merged"⟩]
        else (traverseChapters .pdf (selectedChapters.map (·.id)) flags chapters []
          ⟨[], []⟩).tasks) = _
      rw [if_neg hemp, hfull]
      rw [if_neg (by simp)]
    rw [hplan] at ht
    exact traverseChapters_no_X (selectedChapters.map (·.id)) flags X hchild hfilter
      chapters [] ⟨[], []⟩ hok (by simp) t ht

/-- The ancestor-merge scenario refuting C10 as stated: `A` (pages 1-4) is
merge-flagged; its child `X` (pages 2-4) is selected and has an unselected
child `Y` (pages 3-4). -/
def c10Y : Chapter := ⟨"chapter-0-0-0", "Y", some 3, some 4, none, 2, []⟩

def c10X : Chapter := ⟨"chapter-0-0", "X", some 2, some 4, none, 1, [c10Y]⟩

def c10A : Chapter := ⟨"chapter-0", "A", some 1, some 4, none, 0, [c10X]⟩

/-- C10 (counterexample to the claim as stated): `X` is selected, has
children, and has no selected descendant, yet its full span *is* exported —
the merge-flagged ancestor `A` gathers `X` itself (pages 2-4) as a content
unit of `A`'s task.  So "that node's own pages are never exported" fails. -/
theorem planExport_no_own_task_counterexample :
    planExport .pdf [c10A] [c10X] .separate ["chapter-0"] =
      [⟨"A", [⟨"chapter-0_intro", "A", some 1, some 1, none, 0, []⟩, c10X], [], "chapter-0"⟩] ∧
    c10X.children ≠ [] ∧
    (getAllDescendants c10X).filter
      (fun ch => (([c10X] : List Chapter).map (·.id)).contains ch.id) = [] ∧
    (∃ t ∈ planExport .pdf [c10A] [c10X] .separate ["chapter-0"], c10X ∈ t.chapters) := by
  refine ⟨by decide, by decide, by decide, ?_⟩
  refine ⟨_, List.mem_singleton.mpr rfl, ?_⟩
  decide

/-- Witness for C10 (amended): tree `A(1-4, children [X(2-4, children [Y(3-4)])])`,
selection `[A, X]`, no merge flags: `A`'s independent span yields a task,
but no task owns `X` and no `X`-intro unit exists anywhere. -/
theorem planExport_no_own_task_witness :
    (c10X ∈ chapterNodesList [c10A]) ∧
    (∀ t ∈ planExport .pdf [c10A] [c10A, c10X] .separate [],
      t.chapterId ≠ c10X.id ∧ ∀ u ∈ t.chapters, u.id ≠ c10X.id ++ "_intro") :=
  ⟨by decide,
   planExport_no_own_task [c10A] [c10A, c10X] .separate [] c10X (by decide) (by decide)
     (by decide) (by decide) (by decide) (by decide) (by decide)⟩
